import Mathlib

/-!
Verification of the PDF → knowledge-graph pipeline implemented in `GEMINI.py`.

The program is a straight-line pipeline: extract text from an uploaded PDF,
ask a language model for subject/predicate/object triples as a JSON array,
parse the model's reply, build a directed graph with `networkx` and render it.

This file gives a shallow embedding of the deterministic parts of the
pipeline.  External effects (the PDF reader, the Gemini network call,
`matplotlib` rasterization, the filesystem) are abstracted at their
boundaries: the document is represented by its page texts, the model call by
the reply string it returns, and the rendered image by the graph handed to
the drawing code.
-/

/-! ### Python values

A model of the Python values that flow through the pipeline: results of
`json.loads` and the fields of triples.  Floats are kept as their source
lexeme (no IEEE-754 semantics is needed by anything in the pipeline); the
decoded value of a `\uXXXX` escape that denotes a lone surrogate is not
modelled exactly (it decodes to the null character here), which no
equality in this development depends on. -/

inductive PyValue where
  | none
  | bool (b : Bool)
  | int (n : Int)
  | float (lexeme : String)
  | str (s : String)
  | list (items : List PyValue)
  | dict (entries : List (String × PyValue))

mutual

/-- Decidable equality of `PyValue`, written by hand because the automatic
derivation does not handle the nested occurrences under `List`. -/
def pyDecEq : (a b : PyValue) → Decidable (a = b)
  | .none, .none => isTrue rfl
  | .bool a, .bool b =>
    match decEq a b with
    | isTrue h => isTrue (h ▸ rfl)
    | isFalse h => isFalse (fun hh => h (by injection hh))
  | .int a, .int b =>
    match decEq a b with
    | isTrue h => isTrue (h ▸ rfl)
    | isFalse h => isFalse (fun hh => h (by injection hh))
  | .float a, .float b =>
    match decEq a b with
    | isTrue h => isTrue (h ▸ rfl)
    | isFalse h => isFalse (fun hh => h (by injection hh))
  | .str a, .str b =>
    match decEq a b with
    | isTrue h => isTrue (h ▸ rfl)
    | isFalse h => isFalse (fun hh => h (by injection hh))
  | .list a, .list b =>
    match pyDecEqList a b with
    | isTrue h => isTrue (h ▸ rfl)
    | isFalse h => isFalse (fun hh => h (by injection hh))
  | .dict a, .dict b =>
    match pyDecEqDict a b with
    | isTrue h => isTrue (h ▸ rfl)
    | isFalse h => isFalse (fun hh => h (by injection hh))
  | .none, .bool _ => isFalse (by intro h; exact PyValue.noConfusion h)
  | .none, .int _ => isFalse (by intro h; exact PyValue.noConfusion h)
  | .none, .float _ => isFalse (by intro h; exact PyValue.noConfusion h)
  | .none, .str _ => isFalse (by intro h; exact PyValue.noConfusion h)
  | .none, .list _ => isFalse (by intro h; exact PyValue.noConfusion h)
  | .none, .dict _ => isFalse (by intro h; exact PyValue.noConfusion h)
  | .bool _, .none => isFalse (by intro h; exact PyValue.noConfusion h)
  | .bool _, .int _ => isFalse (by intro h; exact PyValue.noConfusion h)
  | .bool _, .float _ => isFalse (by intro h; exact PyValue.noConfusion h)
  | .bool _, .str _ => isFalse (by intro h; exact PyValue.noConfusion h)
  | .bool _, .list _ => isFalse (by intro h; exact PyValue.noConfusion h)
  | .bool _, .dict _ => isFalse (by intro h; exact PyValue.noConfusion h)
  | .int _, .none => isFalse (by intro h; exact PyValue.noConfusion h)
  | .int _, .bool _ => isFalse (by intro h; exact PyValue.noConfusion h)
  | .int _, .float _ => isFalse (by intro h; exact PyValue.noConfusion h)
  | .int _, .str _ => isFalse (by intro h; exact PyValue.noConfusion h)
  | .int _, .list _ => isFalse (by intro h; exact PyValue.noConfusion h)
  | .int _, .dict _ => isFalse (by intro h; exact PyValue.noConfusion h)
  | .float _, .none => isFalse (by intro h; exact PyValue.noConfusion h)
  | .float _, .bool _ => isFalse (by intro h; exact PyValue.noConfusion h)
  | .float _, .int _ => isFalse (by intro h; exact PyValue.noConfusion h)
  | .float _, .str _ => isFalse (by intro h; exact PyValue.noConfusion h)
  | .float _, .list _ => isFalse (by intro h; exact PyValue.noConfusion h)
  | .float _, .dict _ => isFalse (by intro h; exact PyValue.noConfusion h)
  | .str _, .none => isFalse (by intro h; exact PyValue.noConfusion h)
  | .str _, .bool _ => isFalse (by intro h; exact PyValue.noConfusion h)
  | .str _, .int _ => isFalse (by intro h; exact PyValue.noConfusion h)
  | .str _, .float _ => isFalse (by intro h; exact PyValue.noConfusion h)
  | .str _, .list _ => isFalse (by intro h; exact PyValue.noConfusion h)
  | .str _, .dict _ => isFalse (by intro h; exact PyValue.noConfusion h)
  | .list _, .none => isFalse (by intro h; exact PyValue.noConfusion h)
  | .list _, .bool _ => isFalse (by intro h; exact PyValue.noConfusion h)
  | .list _, .int _ => isFalse (by intro h; exact PyValue.noConfusion h)
  | .list _, .float _ => isFalse (by intro h; exact PyValue.noConfusion h)
  | .list _, .str _ => isFalse (by intro h; exact PyValue.noConfusion h)
  | .list _, .dict _ => isFalse (by intro h; exact PyValue.noConfusion h)
  | .dict _, .none => isFalse (by intro h; exact PyValue.noConfusion h)
  | .dict _, .bool _ => isFalse (by intro h; exact PyValue.noConfusion h)
  | .dict _, .int _ => isFalse (by intro h; exact PyValue.noConfusion h)
  | .dict _, .float _ => isFalse (by intro h; exact PyValue.noConfusion h)
  | .dict _, .str _ => isFalse (by intro h; exact PyValue.noConfusion h)
  | .dict _, .list _ => isFalse (by intro h; exact PyValue.noConfusion h)

def pyDecEqList : (a b : List PyValue) → Decidable (a = b)
  | [], [] => isTrue rfl
  | [], _ :: _ => isFalse (by intro h; exact List.noConfusion h)
  | _ :: _, [] => isFalse (by intro h; exact List.noConfusion h)
  | x :: xs, y :: ys =>
    match pyDecEq x y, pyDecEqList xs ys with
    | isTrue h1, isTrue h2 => isTrue (by rw [h1, h2])
    | isFalse h1, _ => isFalse (fun hh => h1 (by injection hh))
    | isTrue _, isFalse h2 => isFalse (fun hh => h2 (by injection hh))

def pyDecEqDict : (a b : List (String × PyValue)) → Decidable (a = b)
  | [], [] => isTrue rfl
  | [], _ :: _ => isFalse (by intro h; exact List.noConfusion h)
  | _ :: _, [] => isFalse (by intro h; exact List.noConfusion h)
  | (k, x) :: xs, (l, y) :: ys =>
    match decEq k l, pyDecEq x y, pyDecEqDict xs ys with
    | isTrue h0, isTrue h1, isTrue h2 => isTrue (by rw [h0, h1, h2])
    | isFalse h0, _, _ =>
      isFalse (fun hh => by injection hh with h3 h4; exact h0 (congrArg Prod.fst h3))
    | isTrue _, isFalse h1, _ =>
      isFalse (fun hh => by injection hh with h3 h4; exact h1 (congrArg Prod.snd h3))
    | isTrue _, isTrue _, isFalse h2 => isFalse (fun hh => h2 (by injection hh))

end

instance : DecidableEq PyValue := pyDecEq

/-- Python truthiness of a value, as used by `if not triples:` and by the
`if subj and pred and obj:` guard.  `None`, `False`, zero, the empty string,
the empty list and the empty dict are falsy.  For a float the Python test is
on its IEEE-754 value; the pipeline never tests a float, and this model calls
a float lexeme falsy exactly when its mantissa digits are all zero. -/
def pyTruthy : PyValue → Bool
  | .none => false
  | .bool b => b
  | .int n => n != 0
  | .float lexeme =>
    (lexeme.toList.takeWhile (fun c => c != 'e' && c != 'E')).any
      (fun c => c.isDigit && c != '0')
  | .str s => s != ""
  | .list items => items != []
  | .dict entries => entries != []

/-- `d.get(key)` on a Python dict built from an ordered list of key/value
pairs (as produced by the JSON decoder, where a repeated key keeps the last
value): the value of the last pair bearing `key`, or `None` if no pair does. -/
def dictGet (entries : List (String × PyValue)) (key : String) : PyValue :=
  match (entries.filter (fun p => p.1 = key)).getLast? with
  | some p => p.2
  | Option.none => .none

/-! ### The graph built by `networkx`

`build_and_save_graph` iterates over the parsed triples; for each triple it
reads `triple.get("subject")`, `triple.get("predicate")`,
`triple.get("object")` and, when all three are truthy, calls
`G.add_edge(subj, obj, label=pred)` on a `networkx.DiGraph`.

A `networkx.DiGraph` is a simple directed graph: `add_edge u v` inserts the
endpoints as nodes (if new) and the edge `(u, v)` (if new); the `label`
attribute of the edge is set to the given value, overwriting the label of a
previously inserted `(u, v)` edge.  The model keeps nodes in insertion order
and each directed edge as `(source, target, label)` with at most one entry
per `(source, target)` pair. -/

structure DiGraph where
  nodes : List PyValue
  edges : List (PyValue × PyValue × PyValue)
deriving DecidableEq

/-- `G.add_node u`: insert a node if it is not already present. -/
def addNode (ns : List PyValue) (u : PyValue) : List PyValue :=
  if u ∈ ns then ns else ns ++ [u]

/-- Insert the edge `(u, v)` with attribute `label`, or overwrite the label
of the existing `(u, v)` edge. -/
def setEdge (es : List (PyValue × PyValue × PyValue)) (u v lab : PyValue) :
    List (PyValue × PyValue × PyValue) :=
  match es with
  | [] => [(u, v, lab)]
  | (a, b, l) :: rest =>
    if a = u ∧ b = v then (a, b, lab) :: rest else (a, b, l) :: setEdge rest u v lab

/-- `G.add_edge(u, v, label=lab)` on a `networkx.DiGraph`. -/
def addEdge (G : DiGraph) (u v lab : PyValue) : DiGraph :=
  { nodes := addNode (addNode G.nodes u) v, edges := setEdge G.edges u v lab }

/-- Does the triple pass the `if subj and pred and obj:` guard? -/
def truthyTriple (t : List (String × PyValue)) : Bool :=
  pyTruthy (dictGet t "subject") && pyTruthy (dictGet t "predicate")
    && pyTruthy (dictGet t "object")

/-- One iteration of the loop in `build_and_save_graph`: read the three
fields and skip the triple unless `subject`, `predicate` and `object` are
all truthy. -/
def graphStep (G : DiGraph) (t : List (String × PyValue)) : DiGraph :=
  if truthyTriple t then
    addEdge G (dictGet t "subject") (dictGet t "object") (dictGet t "predicate")
  else G

/-- The graph-construction part of `build_and_save_graph` (the spring
layout, drawing and `savefig` consume the resulting graph and are external
I/O).  A triple is a JSON object, modelled as its ordered key/value pairs. -/
def build_and_save_graph (triples : List (List (String × PyValue))) : DiGraph :=
  triples.foldl graphStep ⟨[], []⟩

/-! ### Python `str.strip()` -/

/-- The characters removed by Python's `str.strip()` with no argument:
exactly those for which `str.isspace()` holds. -/
def isPyWs (c : Char) : Bool :=
  c = ' ' || c = '\t' || c = '\n' || c = '\r' || c = '\x0b' || c = '\x0c' ||
  c = '\x1c' || c = '\x1d' || c = '\x1e' || c = '\x1f' || c = '\x85' ||
  c = '\xa0' || c = '\u1680' || c = '\u2000' || c = '\u2001' || c = '\u2002' ||
  c = '\u2003' || c = '\u2004' || c = '\u2005' || c = '\u2006' || c = '\u2007' ||
  c = '\u2008' || c = '\u2009' || c = '\u200a' || c = '\u2028' || c = '\u2029' ||
  c = '\u202f' || c = '\u205f' || c = '\u3000'

/-- Remove the trailing run of `str.strip()` whitespace. -/
def dropTrailWs (l : List Char) : List Char :=
  (l.reverse.dropWhile isPyWs).reverse

/-- Python `s.strip()` on a character list: remove the leading and the
trailing whitespace runs. -/
def pyStrip (l : List Char) : List Char :=
  dropTrailWs (l.dropWhile isPyWs)

/-! ### The code-fence regular expression

`re.sub(r"^```(?:json)?|```$", "", raw_text, flags=re.MULTILINE)` removes,
scanning left to right over non-overlapping matches, every occurrence of
three backticks (optionally followed by `json`) at the start of a line, and
every occurrence of three backticks at the end of a line.  With
`re.MULTILINE`, `^` matches at the start of the text and after each newline,
and `$` matches at the end of the text and before each newline.  The scan
below carries the fuel (the remaining length bound) and whether the current
position is at the start of a line; alternatives are tried in the pattern's
order, and scanning resumes after each removed match. -/

/-- Three backticks, the fence delimiter. -/
def tics : List Char := "```".toList

/-- Three backticks followed by the language tag. -/
def ticsJson : List Char := "```json".toList

def fenceGo : Nat → Bool → List Char → List Char
  | 0, _, s => s
  | f + 1, atLineStart, s =>
    if atLineStart ∧ s.take 7 = ticsJson then fenceGo f false (s.drop 7)
    else if atLineStart ∧ s.take 3 = tics then fenceGo f false (s.drop 3)
    else if s.take 3 = tics ∧ (s.drop 3 = [] ∨ (s.drop 3).head? = some '\n') then
      fenceGo f false (s.drop 3)
    else
      match s with
      | [] => []
      | c :: r => c :: fenceGo f (c = '\n') r

/-- The full substitution applied to `raw_text`.  Every scan step consumes at
least one character, so `l.length` steps of fuel always suffice. -/
def fenceSub (l : List Char) : List Char := fenceGo l.length true l

/-! ### `json.loads`

The Python decoder in its default configuration: a lexical layer producing
tokens (strings with escape processing and strict rejection of raw control
characters, numbers per the JSON grammar, the literals `true`, `false`,
`null` and the accepted non-standard constants `NaN`, `Infinity`,
`-Infinity`, the six structural characters, with `\x20 \t \n \r` as
whitespace), then a recursive parser over the token list that accepts a
single value covering all tokens. -/

/-- JSON whitespace (the characters skipped between tokens by `json.loads`). -/
def isJsonWs (c : Char) : Bool :=
  c = ' ' || c = '\t' || c = '\n' || c = '\r'

inductive JTok where
  | lbrack
  | rbrack
  | lbrace
  | rbrace
  | comma
  | colon
  | jstr (content : List Char)
  | jint (n : Int)
  | jfloat (lexeme : List Char)
  | jbool (b : Bool)
  | jnull
deriving DecidableEq

/-- Value of a hexadecimal digit. -/
def hexVal (c : Char) : Option Nat :=
  if '0' ≤ c ∧ c ≤ '9' then some (c.toNat - '0'.toNat)
  else if 'a' ≤ c ∧ c ≤ 'f' then some (c.toNat - 'a'.toNat + 10)
  else if 'A' ≤ c ∧ c ≤ 'F' then some (c.toNat - 'A'.toNat + 10)
  else Option.none

/-- Scan the body of a JSON string, the opening quote already consumed:
returns the decoded content and the characters after the closing quote.
Escape sequences are decoded; a raw control character (below `\x20`) is
rejected, as the decoder does in its default strict mode. -/
def scanString : List Char → Option (List Char × List Char)
  | [] => Option.none
  | c :: r =>
    if c = '"' then some ([], r)
    else if c = '\\' then
      match r with
      | [] => Option.none
      | e :: t =>
        if e = '"' then (scanString t).map (fun p => ('"' :: p.1, p.2))
        else if e = '\\' then (scanString t).map (fun p => ('\\' :: p.1, p.2))
        else if e = '/' then (scanString t).map (fun p => ('/' :: p.1, p.2))
        else if e = 'b' then (scanString t).map (fun p => ('\x08' :: p.1, p.2))
        else if e = 'f' then (scanString t).map (fun p => ('\x0c' :: p.1, p.2))
        else if e = 'n' then (scanString t).map (fun p => ('\n' :: p.1, p.2))
        else if e = 'r' then (scanString t).map (fun p => ('\r' :: p.1, p.2))
        else if e = 't' then (scanString t).map (fun p => ('\t' :: p.1, p.2))
        else if e = 'u' then
          match t with
          | h1 :: h2 :: h3 :: h4 :: t2 =>
            match hexVal h1, hexVal h2, hexVal h3, hexVal h4 with
            | some a, some b, some c, some d =>
              (scanString t2).map
                (fun p => (Char.ofNat (((a * 16 + b) * 16 + c) * 16 + d) :: p.1, p.2))
            | _, _, _, _ => Option.none
          | _ => Option.none
        else Option.none
    else if c.toNat < 0x20 then Option.none
    else (scanString r).map (fun p => (c :: p.1, p.2))

/-- The characters a number lexeme is drawn from. -/
def isNumChar (c : Char) : Bool :=
  c.isDigit || c = '.' || c = 'e' || c = 'E' || c = '+' || c = '-'

def digitsToNat (ds : List Char) : Nat :=
  ds.foldl (fun a c => a * 10 + (c.toNat - '0'.toNat)) 0

/-- Validate the fraction/exponent tail of a number lexeme:
`('.' digit+)? ([eE] [+-]? digit+)?`, consuming the whole list. -/
def validFracExp (l : List Char) : Bool :=
  let fr := match l with
    | '.' :: t => if t.takeWhile Char.isDigit = [] then Option.none
                  else some (t.dropWhile Char.isDigit)
    | _ => some l
  match fr with
  | Option.none => false
  | some l3 =>
    match l3 with
    | [] => true
    | e :: t =>
      (e = 'e' || e = 'E') &&
      (let t2 := match t with
        | s :: t3 => if s = '+' || s = '-' then t3 else s :: t3
        | [] => []
       t2.takeWhile Char.isDigit ≠ [] && t2.dropWhile Char.isDigit = [])

/-- Turn a maximal run of number characters into a token, enforcing the JSON
number grammar `-? (0 | [1-9] digit*) frac? exp?` over the whole run: an
integer lexeme becomes a Python `int`, any other valid lexeme a `float`. -/
def numToken (span : List Char) : Option JTok :=
  let p := match span with
    | '-' :: t => (true, t)
    | _ => (false, span)
  match p.2 with
  | [] => Option.none
  | d :: _ =>
    if !d.isDigit then Option.none
    else
      let ds := p.2.takeWhile Char.isDigit
      let l2 := p.2.dropWhile Char.isDigit
      if 1 < ds.length ∧ d = '0' then Option.none
      else match l2 with
        | [] => some (.jint (if p.1 then -(digitsToNat ds : Int) else (digitsToNat ds : Int)))
        | _ :: _ => if validFracExp l2 then some (.jfloat span) else Option.none

/-- Turn a maximal alphabetic run into a token: the JSON literals and the
non-standard constants the decoder accepts by default. -/
def wordToken (w : List Char) : Option JTok :=
  if w = "true".toList then some (.jbool true)
  else if w = "false".toList then some (.jbool false)
  else if w = "null".toList then some .jnull
  else if w = "NaN".toList then some (.jfloat w)
  else if w = "Infinity".toList then some (.jfloat w)
  else Option.none

/-- Read one token from the input, the leading whitespace already skipped:
`c` is the first (non-whitespace) character, `r` the characters after it.
Returns the token and the remaining input, or `none` on a lexical error. -/
def tokStep (c : Char) (r : List Char) : Option (JTok × List Char) :=
  if c = '[' then some (.lbrack, r)
  else if c = ']' then some (.rbrack, r)
  else if c = '{' then some (.lbrace, r)
  else if c = '}' then some (.rbrace, r)
  else if c = ',' then some (.comma, r)
  else if c = ':' then some (.colon, r)
  else if c = '"' then
    match scanString r with
    | some (content, rest) => some (.jstr content, rest)
    | Option.none => Option.none
  else if c = '-' ∧ (r.head?.map Char.isAlpha).getD false then
    if r.takeWhile Char.isAlpha = "Infinity".toList then
      some (.jfloat ('-' :: "Infinity".toList), r.dropWhile Char.isAlpha)
    else Option.none
  else if c.isDigit || c = '-' then
    match numToken ((c :: r).takeWhile isNumChar) with
    | some t => some (t, (c :: r).dropWhile isNumChar)
    | Option.none => Option.none
  else if c.isAlpha then
    match wordToken ((c :: r).takeWhile Char.isAlpha) with
    | some t => some (t, (c :: r).dropWhile Char.isAlpha)
    | Option.none => Option.none
  else Option.none

/-- The lexical scan: skip whitespace, read one token, recurse.  Each step
consumes at least one character, so fuel `l.length` always suffices. -/
def tokLoop : Nat → List Char → Option (List JTok)
  | 0, s => if s.dropWhile isJsonWs = [] then some [] else Option.none
  | f + 1, s =>
    match s.dropWhile isJsonWs with
    | [] => some []
    | c :: r =>
      match tokStep c r with
      | some (t, rest) => (tokLoop f rest).map (t :: ·)
      | Option.none => Option.none

/-- Tokenize a complete input. -/
def tokenize (l : List Char) : Option (List JTok) := tokLoop l.length l

/-! The recursive descent over the token list.  `parseVal` reads one value;
`parseArrElems` reads the remaining comma-separated elements of a non-empty
array, `parseObjElems` the remaining `"key" : value` members of a non-empty
object.  Fuel decreases on every call; since each cycle through
`parseVal` consumes at least one token, `2 * length + 2` always suffices. -/

mutual

def parseVal : Nat → List JTok → Option (PyValue × List JTok)
  | 0, _ => Option.none
  | _ + 1, [] => Option.none
  | f + 1, t :: ts =>
    match t with
    | .lbrack =>
      match ts with
      | .rbrack :: rest => some (.list [], rest)
      | _ => parseArrElems f [] ts
    | .lbrace =>
      match ts with
      | .rbrace :: rest => some (.dict [], rest)
      | _ => parseObjElems f [] ts
    | .jstr content => some (.str (String.mk content), ts)
    | .jint n => some (.int n, ts)
    | .jfloat lexeme => some (.float (String.mk lexeme), ts)
    | .jbool b => some (.bool b, ts)
    | .jnull => some (.none, ts)
    | _ => Option.none

def parseArrElems : Nat → List PyValue → List JTok → Option (PyValue × List JTok)
  | 0, _, _ => Option.none
  | f + 1, acc, ts =>
    match parseVal f ts with
    | some (v, rest) =>
      match rest with
      | .comma :: rest2 => parseArrElems f (acc ++ [v]) rest2
      | .rbrack :: rest2 => some (.list (acc ++ [v]), rest2)
      | _ => Option.none
    | Option.none => Option.none

def parseObjElems : Nat → List (String × PyValue) → List JTok → Option (PyValue × List JTok)
  | 0, _, _ => Option.none
  | f + 1, acc, ts =>
    match ts with
    | .jstr k :: .colon :: rest =>
      match parseVal f rest with
      | some (v, rest2) =>
        match rest2 with
        | .comma :: rest3 => parseObjElems f (acc ++ [(String.mk k, v)]) rest3
        | .rbrace :: rest3 => some (.dict (acc ++ [(String.mk k, v)]), rest3)
        | _ => Option.none
      | Option.none => Option.none
    | _ => Option.none

end

/-- Parse a complete token list as a single JSON value with nothing left
over (the decoder raises `Extra data` otherwise). -/
def parseTop (ts : List JTok) : Option PyValue :=
  match parseVal (2 * ts.length + 2) ts with
  | some (v, []) => some v
  | _ => Option.none

/-- `json.loads` on a character list: `some v` when decoding succeeds,
`none` when the decoder raises `JSONDecodeError`. -/
def json_loads_list (l : List Char) : Option PyValue :=
  match tokenize l with
  | some ts => parseTop ts
  | Option.none => Option.none

/-- `json.loads` on a string. -/
def json_loads (s : String) : Option PyValue := json_loads_list s.toList

/-! ### The pipeline functions -/

/-- `extract_text_from_pdf`: the `fitz` document is abstracted to the list
of its pages' extracted texts, in page order; `"".join(...)` concatenates
them with no separator. -/
def extract_text_from_pdf (pages : List String) : String :=
  String.join pages

/-- The cleaning applied to the model's reply:
`raw_text = response.text.strip()`, then
`cleaned_text = re.sub(r"^```(?:json)?|```$", "", raw_text, flags=re.MULTILINE).strip()`. -/
def cleanReply (l : List Char) : List Char :=
  pyStrip (fenceSub (pyStrip l))

/-- `extract_knowledge_triples`, as a function of the text of the model's
reply (`response.text`; the network call to Gemini is external).  The
cleaned reply is fed to `json.loads`; on success the parsed value is
returned as is, and on `JSONDecodeError` the function logs and returns `[]`. -/
def extract_knowledge_triples (response_text : String) : PyValue :=
  match json_loads_list (cleanReply response_text.toList) with
  | some v => v
  | Option.none => .list []

/-! ### The `/upload` route -/

/-- The JSON body of a response from `upload_pdf`:
`jsonify({"error": msg})` or `jsonify({"image_url": "/generated/<uuid4>.png"})`
(the image filename is a fresh random hex string). -/
inductive RBody where
  | error (msg : String)
  | imageUrl
deriving DecidableEq

/-- What a request to `/upload` produces.  `status`/`body` describe the
HTTP response (`status = none` when an exception escapes the handler and no
structured response is built); `fileSaved` records whether
`pdf_file.save(...)` ran, `extractionRun` whether `extract_knowledge_triples`
was called, and `builtGraph` the graph handed to the renderer when
`build_and_save_graph` ran (an image file is produced exactly then). -/
structure UploadOutcome where
  status : Option Nat
  body : Option RBody
  fileSaved : Bool
  extractionRun : Bool
  builtGraph : Option DiGraph
deriving DecidableEq

/-- The values `build_and_save_graph` can iterate without raising: a Python
list whose elements are all dicts.  Anything else raises (`TypeError` on a
non-iterable, `AttributeError` on an element with no `.get`) before an image
is saved. -/
def dictsOnly : List PyValue → Option (List (List (String × PyValue)))
  | [] => some []
  | .dict d :: rest => (dictsOnly rest).map (d :: ·)
  | _ => Option.none

def asTripleDicts : PyValue → Option (List (List (String × PyValue)))
  | .list items => dictsOnly items
  | _ => Option.none

/-- The `/upload` handler `upload_pdf`.  `pdf_file` is the truthiness of
`request.files.get('pdf')` (false when the request carries no file under
the field name `pdf`); `model_reply` is the text the Gemini call returns
for the uploaded document's extracted text. -/
def upload_pdf (pdf_file : Bool) (model_reply : String) : UploadOutcome :=
  if !pdf_file then
    { status := some 400, body := some (.error "No PDF file uploaded"),
      fileSaved := false, extractionRun := false, builtGraph := Option.none }
  else
    let triples := extract_knowledge_triples model_reply
    if !pyTruthy triples then
      { status := some 500, body := some (.error "No triples extracted from PDF"),
        fileSaved := true, extractionRun := true, builtGraph := Option.none }
    else
      match asTripleDicts triples with
      | some ts =>
        { status := some 200, body := some .imageUrl,
          fileSaved := true, extractionRun := true,
          builtGraph := some (build_and_save_graph ts) }
      | Option.none =>
        { status := Option.none, body := Option.none,
          fileSaved := true, extractionRun := true, builtGraph := Option.none }

/-! ### Auxiliary notions used by the statements and proofs -/

/-- Remove duplicate elements, keeping the last occurrence of each. -/
def dedupKeepLast {α : Type} [DecidableEq α] : List α → List α
  | [] => []
  | t :: r => if t ∈ r then dedupKeepLast r else t :: dedupKeepLast r

/-- The triples of `ts` that pass the truthiness guard and have subject `u`
and object `v`. -/
def matchTriples (ts : List (List (String × PyValue))) (u v : PyValue) :
    List (List (String × PyValue)) :=
  ts.filter (fun t =>
    truthyTriple t && decide (dictGet t "subject" = u) && decide (dictGet t "object" = v))

/-- The predicate of the last truthy triple of `ts` with subject `u` and
object `v`, if any. -/
def lastPred (ts : List (List (String × PyValue))) (u v : PyValue) : Option PyValue :=
  ((matchTriples ts u v).getLast?).map (fun t => dictGet t "predicate")

/-- The `(source, target)` keys of an edge list. -/
def edgeKeys (es : List (PyValue × PyValue × PyValue)) : List (PyValue × PyValue) :=
  es.map (fun e => (e.1, e.2.1))

/-- Each `(source, target)` pair occurs at most once (the `networkx.DiGraph`
simple-graph invariant, which `setEdge` preserves). -/
def NodupKeys (es : List (PyValue × PyValue × PyValue)) : Prop :=
  (edgeKeys es).Nodup

/-- The backtick character.  (Written by code point; it delimits the
markdown fences the extractor strips.) -/
def backquote : Char := Char.ofNat 96

/-- Adjacent characters that no fence match can straddle: a backtick never
directly before or after a newline. -/
def okPair (a b : Char) : Prop :=
  ¬(a = backquote ∧ b = '\n') ∧ ¬(a = '\n' ∧ b = backquote)

/-- A character list inside which, and at whose ends, the line-anchored
fence pattern cannot match: no backtick at either end and no backtick
adjacent to a newline.  Every string accepted by the JSON tokenizer has this
shape, because a backtick can occur only inside a string literal, which
contains no raw newline. -/
def SafeChars (l : List Char) : Prop :=
  l.head? ≠ some backquote ∧ l.getLast? ≠ some backquote ∧ List.Chain' okPair l

/-- The shape of the characters one token (or one whitespace-free chunk)
consumed from the input occupies: non-empty, no backtick at either end, a
final character that is not strippable whitespace, and never a backtick and
a newline in the same chunk (string literals may hold backticks but no raw
newline; every other token holds neither). -/
def GoodToken (l : List Char) : Prop :=
  l ≠ [] ∧ l.head? ≠ some backquote ∧
    (∃ z, l.getLast? = some z ∧ z ≠ backquote ∧ isPyWs z = false) ∧
    ('\n' ∉ l ∨ backquote ∉ l)

/-! ## Theorems -/

lemma string_foldl_append (l : List String) (s : String) :
    l.foldl (· ++ ·) s = s ++ l.foldr (· ++ ·) "" := by
  induction l generalizing s with
  | nil => simp
  | cons a l ih => simp [List.foldl_cons, List.foldr_cons, ih (s ++ a), String.append_assoc]

/-- C6: `extract_text_from_pdf` returns exactly the concatenation of the
per-page texts in page order with no inserted separator; on a single-page
document it returns that page's text exactly. -/
theorem extract_text_from_pdf_concat :
    (∀ pages : List String,
        extract_text_from_pdf pages = pages.foldr (· ++ ·) "") ∧
    ∀ t : String, extract_text_from_pdf [t] = t := by
  constructor
  · intro pages
    simpa [extract_text_from_pdf, String.join] using string_foldl_append pages ""
  · intro t
    simp [extract_text_from_pdf, String.join]

/-- C8: a request to `/upload` with no (truthy) file under the field name
`pdf` gets status 400 with body `{"error": "No PDF file uploaded"}`; the
file is not saved, extraction does not run, and no graph is built. -/
theorem upload_pdf_no_file (reply : String) :
    upload_pdf false reply =
      { status := some 400, body := some (.error "No PDF file uploaded"),
        fileSaved := false, extractionRun := false, builtGraph := Option.none } := rfl

/-- C1: when the extractor returns an empty list, `/upload` responds with
status 500 and body `{"error": "No triples extracted from PDF"}`, and the
graph builder/renderer is never invoked (no image is produced). -/
theorem upload_pdf_empty_triples (reply : String)
    (h : extract_knowledge_triples reply = PyValue.list []) :
    upload_pdf true reply =
      { status := some 500, body := some (.error "No triples extracted from PDF"),
        fileSaved := true, extractionRun := true, builtGraph := Option.none } := by
  unfold upload_pdf
  simp [h, pyTruthy]

theorem upload_pdf_empty_triples_witness :
    extract_knowledge_triples "nonsense" = PyValue.list [] ∧
    upload_pdf true "nonsense" =
      { status := some 500, body := some (.error "No triples extracted from PDF"),
        fileSaved := true, extractionRun := true, builtGraph := Option.none } :=
  ⟨by decide, upload_pdf_empty_triples "nonsense" (by decide)⟩

/-- C2: when the cleaned reply fails to parse as JSON, the extractor
returns the empty list; parse failure is absorbed (in the code the
`json.JSONDecodeError` handler returns `[]`; the model is a total function,
so no exception propagates). -/
theorem extract_not_json (s : String)
    (h : json_loads_list (cleanReply s.toList) = Option.none) :
    extract_knowledge_triples s = PyValue.list [] := by
  unfold extract_knowledge_triples
  rw [h]

theorem extract_not_json_witness :
    json_loads_list (cleanReply ("not json".toList)) = Option.none ∧
    extract_knowledge_triples "not json" = PyValue.list [] :=
  ⟨by decide, extract_not_json "not json" (by decide)⟩

/-- C7, counterexample to the claim as stated: on the reply `"42"` the
cleaned text parses successfully, yet the extractor's result is the bare
scalar `42`, not a list. -/
theorem extract_shape_counterexample :
    json_loads_list (cleanReply ("42".toList)) = some (PyValue.int 42) ∧
    extract_knowledge_triples "42" = PyValue.int 42 ∧
    ∀ xs : List PyValue, PyValue.int 42 ≠ PyValue.list xs := by
  refine ⟨by decide, by decide, ?_⟩
  intro xs h
  exact PyValue.noConfusion h

/-- C7, amended: whenever the JSON parse of the cleaned reply succeeds, the
extractor returns the parsed value unchanged, whatever its shape; no
array-of-objects validation is performed. -/
theorem extract_returns_parsed (s : String) (v : PyValue)
    (h : json_loads_list (cleanReply s.toList) = some v) :
    extract_knowledge_triples s = v := by
  unfold extract_knowledge_triples
  rw [h]

theorem extract_returns_parsed_witness :
    json_loads_list (cleanReply ("[1]".toList)) = some (PyValue.list [PyValue.int 1]) ∧
    extract_knowledge_triples "[1]" = PyValue.list [PyValue.int 1] :=
  ⟨by decide, extract_returns_parsed "[1]" _ (by decide)⟩

lemma build_graph_all_skipped (ts : List (List (String × PyValue)))
    (h : ∀ t ∈ ts, truthyTriple t = false) :
    build_and_save_graph ts = ⟨[], []⟩ := by
  unfold build_and_save_graph
  induction ts with
  | nil => rfl
  | cons t ts ih =>
    have ht := h t (List.mem_cons_self t ts)
    have : graphStep ⟨[], []⟩ t = ⟨[], []⟩ := by
      unfold graphStep
      simp [ht]
    rw [List.foldl_cons, this]
    exact ih (fun t ht => h t (List.mem_cons_of_mem _ ht))

lemma asTripleDicts_of_dicts (ds : List PyValue)
    (h : ∀ d ∈ ds, ∃ kv, d = PyValue.dict kv ∧ truthyTriple kv = false) :
    ∃ ts, asTripleDicts (PyValue.list ds) = some ts ∧ ∀ t ∈ ts, truthyTriple t = false := by
  induction ds with
  | nil => exact ⟨[], rfl, by simp⟩
  | cons d ds ih =>
    obtain ⟨kv, rfl, hkv⟩ := h d (List.mem_cons_self d ds)
    obtain ⟨ts, hts, hall⟩ := ih (fun d hd => h d (List.mem_cons_of_mem _ hd))
    refine ⟨kv :: ts, ?_, ?_⟩
    · simp only [asTripleDicts, dictsOnly] at hts ⊢
      simp [hts]
    · intro t ht
      rcases List.mem_cons.mp ht with rfl | ht
      · exact hkv
      · exact hall t ht

/-- C9: the "no triples" check tests only emptiness of the parsed list.
When the parsed list is non-empty but every element is an object failing the
truthiness guard, `/upload` succeeds with an `image_url` response and the
rendered image depicts the empty graph: no nodes, no edges. -/
theorem upload_pdf_unusable_triples (reply : String) (ds : List PyValue)
    (h1 : extract_knowledge_triples reply = PyValue.list ds)
    (h2 : ds ≠ [])
    (h3 : ∀ d ∈ ds, ∃ kv, d = PyValue.dict kv ∧ truthyTriple kv = false) :
    upload_pdf true reply =
      { status := some 200, body := some .imageUrl, fileSaved := true,
        extractionRun := true, builtGraph := some ⟨[], []⟩ } := by
  obtain ⟨ts, hts, hall⟩ := asTripleDicts_of_dicts ds h3
  unfold upload_pdf
  simp [h1, pyTruthy, h2, hts, build_graph_all_skipped ts hall]

theorem upload_pdf_unusable_triples_witness :
    extract_knowledge_triples "[\x7b\"subject\": \"\"\x7d]" =
      PyValue.list [PyValue.dict [("subject", PyValue.str "")]] ∧
    upload_pdf true "[\x7b\"subject\": \"\"\x7d]" =
      { status := some 200, body := some .imageUrl, fileSaved := true,
        extractionRun := true, builtGraph := some ⟨[], []⟩ } := by
  refine ⟨by decide,
    upload_pdf_unusable_triples "[\x7b\"subject\": \"\"\x7d]"
      [PyValue.dict [("subject", PyValue.str "")]] (by decide) (by decide) ?_⟩
  intro d hd
  simp only [List.mem_singleton] at hd
  exact ⟨[("subject", PyValue.str "")], hd, by decide⟩

lemma mem_addNode (ns : List PyValue) (u x : PyValue) :
    x ∈ addNode ns u ↔ x ∈ ns ∨ x = u := by
  unfold addNode
  by_cases h : u ∈ ns
  · simp only [if_pos h]
    constructor
    · exact Or.inl
    · rintro (hx | rfl)
      · exact hx
      · exact h
  · simp [if_neg h]

lemma mem_setEdge_other (es : List (PyValue × PyValue × PyValue)) (u v lab : PyValue)
    (x : PyValue × PyValue × PyValue) (hx : ¬(x.1 = u ∧ x.2.1 = v)) :
    x ∈ setEdge es u v lab ↔ x ∈ es := by
  induction es with
  | nil =>
    simp only [setEdge, List.mem_singleton, List.not_mem_nil, iff_false]
    rintro rfl
    exact hx ⟨rfl, rfl⟩
  | cons e rest ih =>
    obtain ⟨a, b, l0⟩ := e
    by_cases hk : a = u ∧ b = v
    · obtain ⟨rfl, rfl⟩ := hk
      simp only [setEdge, and_self, if_true, List.mem_cons]
      have h1 : x ≠ (a, b, lab) := fun hh => hx (by rw [hh]; exact ⟨rfl, rfl⟩)
      have h2 : x ≠ (a, b, l0) := fun hh => hx (by rw [hh]; exact ⟨rfl, rfl⟩)
      simp [h1, h2]
    · simp only [setEdge, if_neg hk, List.mem_cons, ih]

lemma edgeKeys_setEdge (es : List (PyValue × PyValue × PyValue)) (u v lab : PyValue) :
    edgeKeys (setEdge es u v lab) =
      if (u, v) ∈ edgeKeys es then edgeKeys es else edgeKeys es ++ [(u, v)] := by
  induction es with
  | nil => simp [setEdge, edgeKeys]
  | cons e rest ih =>
    obtain ⟨a, b, l0⟩ := e
    by_cases hk : a = u ∧ b = v
    · obtain ⟨rfl, rfl⟩ := hk
      simp [setEdge, edgeKeys]
    · have hne : ((u, v) : PyValue × PyValue) ≠ (a, b) := by
        intro hh
        exact hk ⟨(congrArg Prod.fst hh).symm, (congrArg Prod.snd hh).symm⟩
      simp only [setEdge, if_neg hk, edgeKeys, List.map_cons] at ih ⊢
      rw [ih]
      by_cases hmem : (u, v) ∈ rest.map (fun e => (e.1, e.2.1))
      · simp [hmem, hne]
      · simp [hmem, hne]

lemma nodupKeys_setEdge (es : List (PyValue × PyValue × PyValue)) (u v lab : PyValue)
    (h : NodupKeys es) : NodupKeys (setEdge es u v lab) := by
  unfold NodupKeys at h ⊢
  rw [edgeKeys_setEdge]
  by_cases hmem : (u, v) ∈ edgeKeys es
  · simpa [hmem] using h
  · simp [hmem, List.nodup_append, h]

lemma mem_setEdge_key (es : List (PyValue × PyValue × PyValue)) (u v lab : PyValue)
    (h : NodupKeys es) (l : PyValue) :
    (u, v, l) ∈ setEdge es u v lab ↔ l = lab := by
  induction es with
  | nil => simp [setEdge]
  | cons e rest ih =>
    obtain ⟨a, b, l0⟩ := e
    have hrest : NodupKeys rest := by
      unfold NodupKeys edgeKeys at h ⊢
      simp only [List.map_cons] at h
      exact (List.nodup_cons.mp h).2
    by_cases hk : a = u ∧ b = v
    · obtain ⟨rfl, rfl⟩ := hk
      have hhead : ((a, b) : PyValue × PyValue) ∉ edgeKeys rest := by
        unfold NodupKeys edgeKeys at h
        simp only [List.map_cons] at h
        exact (List.nodup_cons.mp h).1
      have hnot : (a, b, l) ∉ rest := by
        intro hm
        exact hhead (List.mem_map_of_mem (fun e => (e.1, e.2.1)) hm)
      have hif : setEdge ((a, b, l0) :: rest) a b lab = (a, b, lab) :: rest := by
        simp [setEdge]
      rw [hif, List.mem_cons]
      constructor
      · intro hmem
        rcases hmem with hh | hm
        · exact congrArg (fun e => e.2.2) hh
        · exact absurd hm hnot
      · rintro rfl
        exact Or.inl rfl
    · have hne : ((u, v, l) : PyValue × PyValue × PyValue) ≠ (a, b, l0) := by
        intro hh
        injection hh with hh1 hh2
        injection hh2 with hh3 _
        exact hk ⟨hh1.symm, hh3.symm⟩
      simp only [setEdge, if_neg hk, List.mem_cons]
      rw [ih hrest]
      simp [hne]

lemma nodupKeys_graphStep (G : DiGraph) (t : List (String × PyValue))
    (h : NodupKeys G.edges) : NodupKeys ((graphStep G t).edges) := by
  unfold graphStep
  by_cases ht : truthyTriple t = true
  · simp only [ht, if_true, addEdge]
    exact nodupKeys_setEdge _ _ _ _ h
  · simp only [ht, if_false]
    exact h

lemma nodupKeys_build (ts : List (List (String × PyValue))) :
    ∀ G : DiGraph, NodupKeys G.edges → NodupKeys ((ts.foldl graphStep G).edges) := by
  induction ts with
  | nil => intro G h; exact h
  | cons t ts ih =>
    intro G h
    rw [List.foldl_cons]
    exact ih _ (nodupKeys_graphStep G t h)

lemma matchTriples_cons (t : List (String × PyValue)) (ts : List (List (String × PyValue)))
    (u v : PyValue) :
    matchTriples (t :: ts) u v =
      if truthyTriple t = true ∧ dictGet t "subject" = u ∧ dictGet t "object" = v
      then t :: matchTriples ts u v else matchTriples ts u v := by
  unfold matchTriples
  rw [List.filter_cons]
  by_cases h : truthyTriple t = true ∧ dictGet t "subject" = u ∧ dictGet t "object" = v
  · obtain ⟨h1, h2, h3⟩ := h
    simp [h1, h2, h3]
  · rw [if_neg h]
    have hb : (truthyTriple t && decide (dictGet t "subject" = u)
        && decide (dictGet t "object" = v)) = false := by
      by_contra hc
      rw [Bool.not_eq_false, Bool.and_eq_true, Bool.and_eq_true] at hc
      exact h ⟨hc.1.1, of_decide_eq_true hc.1.2, of_decide_eq_true hc.2⟩
    simp [hb]

lemma foldl_edges_mem (ts : List (List (String × PyValue))) :
    ∀ G : DiGraph, NodupKeys G.edges → ∀ u v lab : PyValue,
      ((u, v, lab) ∈ (ts.foldl graphStep G).edges ↔
        match lastPred ts u v with
        | some p => lab = p
        | Option.none => (u, v, lab) ∈ G.edges) := by
  induction ts with
  | nil =>
    intro G h u v lab
    simp [lastPred, matchTriples]
  | cons t ts ih =>
    intro G h u v lab
    rw [List.foldl_cons, ih (graphStep G t) (nodupKeys_graphStep G t h) u v lab]
    by_cases htr : truthyTriple t = true
    · by_cases hkey : dictGet t "subject" = u ∧ dictGet t "object" = v
      · have hm : matchTriples (t :: ts) u v = t :: matchTriples ts u v := by
          rw [matchTriples_cons, if_pos ⟨htr, hkey.1, hkey.2⟩]
        have hstep : (graphStep G t).edges = setEdge G.edges u v (dictGet t "predicate") := by
          unfold graphStep
          rw [if_pos htr, hkey.1, hkey.2]
          rfl
        by_cases hmt : matchTriples ts u v = []
        · have hl1 : lastPred (t :: ts) u v = some (dictGet t "predicate") := by
            unfold lastPred
            rw [hm, hmt]
            rfl
          have hl2 : lastPred ts u v = Option.none := by
            unfold lastPred
            rw [hmt]
            rfl
          rw [hl1, hl2]
          simp only []
          rw [hstep]
          exact mem_setEdge_key G.edges u v _ h lab
        · obtain ⟨m0, mrest, hmm⟩ : ∃ m0 mrest, matchTriples ts u v = m0 :: mrest := by
            cases hq : matchTriples ts u v with
            | nil => exact absurd hq hmt
            | cons m0 mrest => exact ⟨m0, mrest, rfl⟩
          have hl1 : lastPred (t :: ts) u v = lastPred ts u v := by
            unfold lastPred
            rw [hm, hmm, List.getLast?_cons_cons]
          rw [hl1]
          cases hq : lastPred ts u v with
          | some p => simp
          | none =>
            exfalso
            unfold lastPred at hq
            rw [hmm] at hq
            simp at hq
      · have hm : lastPred (t :: ts) u v = lastPred ts u v := by
          unfold lastPred
          rw [matchTriples_cons, if_neg]
          rintro ⟨_, hb, hc⟩
          exact hkey ⟨hb, hc⟩
        have hstep : (graphStep G t).edges =
            setEdge G.edges (dictGet t "subject") (dictGet t "object") (dictGet t "predicate") := by
          unfold graphStep
          rw [if_pos htr]
          rfl
        rw [hm]
        cases hq : lastPred ts u v with
        | some p => simp
        | none =>
          simp only []
          rw [hstep]
          exact mem_setEdge_other G.edges _ _ _ (u, v, lab)
            (by rintro ⟨h1, h2⟩; exact hkey ⟨h1.symm, h2.symm⟩)
    · have hm : lastPred (t :: ts) u v = lastPred ts u v := by
        unfold lastPred
        rw [matchTriples_cons, if_neg]
        rintro ⟨h1, _⟩
        exact htr h1
      have hstep : graphStep G t = G := by
        unfold graphStep
        rw [if_neg htr]
      rw [hm, hstep]

lemma foldl_nodes_mem (ts : List (List (String × PyValue))) :
    ∀ (G : DiGraph) (n : PyValue),
      (n ∈ (ts.foldl graphStep G).nodes ↔
        n ∈ G.nodes ∨ ∃ t ∈ ts, truthyTriple t = true ∧
          (dictGet t "subject" = n ∨ dictGet t "object" = n)) := by
  induction ts with
  | nil =>
    intro G n
    simp
  | cons t ts ih =>
    intro G n
    rw [List.foldl_cons, ih]
    by_cases htr : truthyTriple t = true
    · have hnodes : (graphStep G t).nodes =
          addNode (addNode G.nodes (dictGet t "subject")) (dictGet t "object") := by
        unfold graphStep
        rw [if_pos htr]
        rfl
      rw [hnodes, mem_addNode, mem_addNode]
      constructor
      · rintro (((hg | hs) | ho) | ⟨t2, ht2, hp⟩)
        · exact Or.inl hg
        · exact Or.inr ⟨t, List.mem_cons_self t ts, htr, Or.inl hs.symm⟩
        · exact Or.inr ⟨t, List.mem_cons_self t ts, htr, Or.inr ho.symm⟩
        · exact Or.inr ⟨t2, List.mem_cons_of_mem t ht2, hp⟩
      · rintro (hg | ⟨t2, ht2, hp⟩)
        · exact Or.inl (Or.inl (Or.inl hg))
        · rcases List.mem_cons.mp ht2 with rfl | hmem
          · rcases hp.2 with hs | ho
            · exact Or.inl (Or.inl (Or.inr hs.symm))
            · exact Or.inl (Or.inr ho.symm)
          · exact Or.inr ⟨t2, hmem, hp⟩
    · have hstep : graphStep G t = G := by
        unfold graphStep
        rw [if_neg htr]
      rw [hstep]
      constructor
      · rintro (hg | ⟨t2, ht2, hp⟩)
        · exact Or.inl hg
        · exact Or.inr ⟨t2, List.mem_cons_of_mem t ht2, hp⟩
      · rintro (hg | ⟨t2, ht2, hp⟩)
        · exact Or.inl hg
        · rcases List.mem_cons.mp ht2 with rfl | hmem
          · exact absurd hp.1 htr
          · exact Or.inr ⟨t2, hmem, hp⟩

lemma filter_key_length (es : List (PyValue × PyValue × PyValue)) (u v p : PyValue)
    (h : NodupKeys es) (hm : (u, v, p) ∈ es) :
    (es.filter (fun e => decide (e.1 = u) && decide (e.2.1 = v))).length = 1 := by
  induction es with
  | nil => exact absurd hm (List.not_mem_nil _)
  | cons e rest ih =>
    obtain ⟨a, b, l0⟩ := e
    have hrest : NodupKeys rest := by
      unfold NodupKeys edgeKeys at h ⊢
      simp only [List.map_cons] at h
      exact (List.nodup_cons.mp h).2
    by_cases hk : a = u ∧ b = v
    · obtain ⟨rfl, rfl⟩ := hk
      have hhead : ((a, b) : PyValue × PyValue) ∉ edgeKeys rest := by
        unfold NodupKeys edgeKeys at h
        simp only [List.map_cons] at h
        exact (List.nodup_cons.mp h).1
      have hfil : rest.filter (fun e => decide (e.1 = a) && decide (e.2.1 = b)) = [] := by
        rw [List.filter_eq_nil_iff]
        intro x hx
        simp only [Bool.and_eq_true, decide_eq_true_eq, not_and]
        intro h1 h2
        apply hhead
        have : ((x.1, x.2.1) : PyValue × PyValue) ∈ edgeKeys rest :=
          List.mem_map_of_mem (fun e => (e.1, e.2.1)) hx
        rw [h1, h2] at this
        exact this
      rw [List.filter_cons, if_pos (by simp)]
      rw [hfil]
      rfl
    · have hne : ((u, v, p) : PyValue × PyValue × PyValue) ≠ (a, b, l0) := by
        intro hh
        injection hh with hh1 hh2
        injection hh2 with hh3 _
        exact hk ⟨hh1.symm, hh3.symm⟩
      have hmem : (u, v, p) ∈ rest := by
        rcases List.mem_cons.mp hm with hh | hh
        · exact absurd hh hne
        · exact hh
      rw [List.filter_cons, if_neg]
      · exact ih hrest hmem
      · simp only [Bool.and_eq_true, decide_eq_true_eq, not_and]
        intro h1 h2
        exact absurd ⟨h1, h2⟩ hk

/-- C3: `build_and_save_graph` adds a subject→object edge labeled with the
predicate exactly for the triples whose three fields are all truthy: every
edge of the graph comes from such a triple, every such triple has its
subject→object edge present, and the node set is exactly the subjects and
objects of the fully-populated triples (a triple with a missing or empty
field contributes neither an edge nor a node). -/
theorem build_and_save_graph_exact (ts : List (List (String × PyValue))) :
    (∀ u v lab : PyValue, (u, v, lab) ∈ (build_and_save_graph ts).edges →
        ∃ t ∈ ts, truthyTriple t = true ∧ dictGet t "subject" = u ∧
          dictGet t "predicate" = lab ∧ dictGet t "object" = v) ∧
    (∀ t ∈ ts, truthyTriple t = true →
        ∃ lab, (dictGet t "subject", dictGet t "object", lab) ∈
          (build_and_save_graph ts).edges) ∧
    (∀ n : PyValue, n ∈ (build_and_save_graph ts).nodes ↔
        ∃ t ∈ ts, truthyTriple t = true ∧
          (dictGet t "subject" = n ∨ dictGet t "object" = n)) := by
  have hnd : NodupKeys (DiGraph.mk [] []).edges := List.nodup_nil
  refine ⟨?_, ?_, ?_⟩
  · intro u v lab hmem
    rw [show (build_and_save_graph ts).edges = (ts.foldl graphStep ⟨[], []⟩).edges from rfl,
      foldl_edges_mem ts ⟨[], []⟩ hnd u v lab] at hmem
    cases hq : lastPred ts u v with
    | none =>
      rw [hq] at hmem
      simp at hmem
    | some p =>
      rw [hq] at hmem
      simp only at hmem
      unfold lastPred at hq
      cases hg : (matchTriples ts u v).getLast? with
      | none =>
        rw [hg] at hq
        simp at hq
      | some tl =>
        rw [hg] at hq
        simp only [Option.map_some', Option.some.injEq] at hq
        have htm : tl ∈ matchTriples ts u v := List.mem_of_mem_getLast? hg
        unfold matchTriples at htm
        rw [List.mem_filter] at htm
        obtain ⟨hts, hcond⟩ := htm
        rw [Bool.and_eq_true, Bool.and_eq_true] at hcond
        exact ⟨tl, hts, hcond.1.1, of_decide_eq_true hcond.1.2, by rw [hq, hmem],
          of_decide_eq_true hcond.2⟩
  · intro t hts htr
    have htm : t ∈ matchTriples ts (dictGet t "subject") (dictGet t "object") := by
      unfold matchTriples
      rw [List.mem_filter]
      exact ⟨hts, by simp [htr]⟩
    have hne : matchTriples ts (dictGet t "subject") (dictGet t "object") ≠ [] := by
      intro hq
      rw [hq] at htm
      exact List.not_mem_nil t htm
    obtain ⟨tl, hg⟩ : ∃ tl,
        (matchTriples ts (dictGet t "subject") (dictGet t "object")).getLast? = some tl := by
      cases hg : (matchTriples ts (dictGet t "subject") (dictGet t "object")).getLast? with
      | none => exact absurd (List.getLast?_eq_none_iff.mp hg) hne
      | some tl => exact ⟨tl, rfl⟩
    refine ⟨dictGet tl "predicate", ?_⟩
    rw [show (build_and_save_graph ts).edges = (ts.foldl graphStep ⟨[], []⟩).edges from rfl,
      foldl_edges_mem ts ⟨[], []⟩ hnd]
    have hq : lastPred ts (dictGet t "subject") (dictGet t "object") =
        some (dictGet tl "predicate") := by
      unfold lastPred
      rw [hg]
      rfl
    rw [hq]
  · intro n
    rw [show (build_and_save_graph ts).nodes = (ts.foldl graphStep ⟨[], []⟩).nodes from rfl,
      foldl_nodes_mem ts ⟨[], []⟩ n]
    simp

theorem build_and_save_graph_exact_witness :
    PyValue.str "A" ∈
      (build_and_save_graph
        [[("subject", PyValue.str "A"), ("predicate", PyValue.str "p"),
          ("object", PyValue.str "B")],
         [("subject", PyValue.str "C"), ("predicate", PyValue.str "")]]).nodes :=
  ((build_and_save_graph_exact
      [[("subject", PyValue.str "A"), ("predicate", PyValue.str "p"),
        ("object", PyValue.str "B")],
       [("subject", PyValue.str "C"), ("predicate", PyValue.str "")]]).2.2
    (PyValue.str "A")).mpr
    ⟨[("subject", PyValue.str "A"), ("predicate", PyValue.str "p"),
      ("object", PyValue.str "B")], by decide, by decide, Or.inl (by decide)⟩

/-- C5: when a triple list contains two or more fully-populated triples with
the same (subject, object) pair but different predicates, the built graph
has exactly one edge between those two nodes, and its label is the predicate
of the last such triple in input order. -/
theorem build_and_save_graph_last_label (ts : List (List (String × PyValue)))
    (u v : PyValue)
    (hlen : 2 ≤ (matchTriples ts u v).length)
    (_hdiff : ∃ t1 ∈ matchTriples ts u v, ∃ t2 ∈ matchTriples ts u v,
        dictGet t1 "predicate" ≠ dictGet t2 "predicate") :
    ∃ tl, (matchTriples ts u v).getLast? = some tl ∧
      (u, v, dictGet tl "predicate") ∈ (build_and_save_graph ts).edges ∧
      ((build_and_save_graph ts).edges.filter
          (fun e => decide (e.1 = u) && decide (e.2.1 = v))).length = 1 := by
  have hnd : NodupKeys (DiGraph.mk [] []).edges := List.nodup_nil
  have hne : matchTriples ts u v ≠ [] := by
    intro hq
    rw [hq] at hlen
    exact absurd hlen (by simp)
  obtain ⟨tl, hg⟩ : ∃ tl, (matchTriples ts u v).getLast? = some tl := by
    cases hg : (matchTriples ts u v).getLast? with
    | none => exact absurd (List.getLast?_eq_none_iff.mp hg) hne
    | some tl => exact ⟨tl, rfl⟩
  have hq : lastPred ts u v = some (dictGet tl "predicate") := by
    unfold lastPred
    rw [hg]
    rfl
  have hmem : (u, v, dictGet tl "predicate") ∈ (build_and_save_graph ts).edges := by
    rw [show (build_and_save_graph ts).edges = (ts.foldl graphStep ⟨[], []⟩).edges from rfl,
      foldl_edges_mem ts ⟨[], []⟩ hnd, hq]
  refine ⟨tl, hg, hmem, ?_⟩
  exact filter_key_length _ u v (dictGet tl "predicate")
    (nodupKeys_build ts ⟨[], []⟩ hnd) hmem

theorem build_and_save_graph_last_label_witness :
    ∃ tl,
      (matchTriples
        [[("subject", PyValue.str "A"), ("predicate", PyValue.str "knows"),
          ("object", PyValue.str "B")],
         [("subject", PyValue.str "A"), ("predicate", PyValue.str "likes"),
          ("object", PyValue.str "B")]] (PyValue.str "A") (PyValue.str "B")).getLast?
        = some tl ∧
      (PyValue.str "A", PyValue.str "B", dictGet tl "predicate") ∈
        (build_and_save_graph
          [[("subject", PyValue.str "A"), ("predicate", PyValue.str "knows"),
            ("object", PyValue.str "B")],
           [("subject", PyValue.str "A"), ("predicate", PyValue.str "likes"),
            ("object", PyValue.str "B")]]).edges ∧
      ((build_and_save_graph
          [[("subject", PyValue.str "A"), ("predicate", PyValue.str "knows"),
            ("object", PyValue.str "B")],
           [("subject", PyValue.str "A"), ("predicate", PyValue.str "likes"),
            ("object", PyValue.str "B")]]).edges.filter
          (fun e => decide (e.1 = PyValue.str "A") && decide (e.2.1 = PyValue.str "B"))).length
        = 1 :=
  build_and_save_graph_last_label
    [[("subject", PyValue.str "A"), ("predicate", PyValue.str "knows"),
      ("object", PyValue.str "B")],
     [("subject", PyValue.str "A"), ("predicate", PyValue.str "likes"),
      ("object", PyValue.str "B")]] (PyValue.str "A") (PyValue.str "B")
    (by decide)
    ⟨[("subject", PyValue.str "A"), ("predicate", PyValue.str "knows"),
      ("object", PyValue.str "B")], by decide,
     [("subject", PyValue.str "A"), ("predicate", PyValue.str "likes"),
      ("object", PyValue.str "B")], by decide, by decide⟩

lemma mem_dedupKeepLast {α : Type} [DecidableEq α] (l : List α) (x : α) :
    x ∈ dedupKeepLast l ↔ x ∈ l := by
  induction l with
  | nil => simp [dedupKeepLast]
  | cons a r ih =>
    unfold dedupKeepLast
    by_cases h : a ∈ r
    · rw [if_pos h, ih, List.mem_cons]
      constructor
      · exact Or.inr
      · rintro (rfl | hx)
        · exact h
        · exact hx
    · rw [if_neg h, List.mem_cons, List.mem_cons, ih]

lemma dedupKeepLast_cons {α : Type} [DecidableEq α] (a : α) (r : List α) :
    dedupKeepLast (a :: r) = if a ∈ r then dedupKeepLast r else a :: dedupKeepLast r := rfl

lemma filter_dedupKeepLast {α : Type} [DecidableEq α] (p : α → Bool) (l : List α) :
    (dedupKeepLast l).filter p = dedupKeepLast (l.filter p) := by
  induction l with
  | nil => rfl
  | cons a r ih =>
    rw [dedupKeepLast_cons]
    by_cases h : a ∈ r
    · rw [if_pos h, ih, List.filter_cons]
      by_cases hp : p a = true
      · rw [if_pos hp, dedupKeepLast_cons, if_pos (List.mem_filter.mpr ⟨h, hp⟩)]
      · rw [if_neg (by simp [hp])]
    · rw [if_neg h, List.filter_cons, List.filter_cons]
      by_cases hp : p a = true
      · rw [if_pos (by simp [hp]), if_pos (by simp [hp]), dedupKeepLast_cons]
        have hnm : a ∉ r.filter p := fun hm => h (List.mem_filter.mp hm).1
        rw [if_neg hnm, ih]
      · rw [if_neg (by simp [hp]), if_neg (by simp [hp]), ih]

lemma dedupKeepLast_ne_nil {α : Type} [DecidableEq α] (l : List α) (h : l ≠ []) :
    dedupKeepLast l ≠ [] := by
  intro hq
  cases l with
  | nil => exact h rfl
  | cons a r =>
    have : a ∈ dedupKeepLast (a :: r) := (mem_dedupKeepLast _ _).mpr (List.mem_cons_self a r)
    rw [hq] at this
    exact List.not_mem_nil a this

lemma getLast_dedupKeepLast {α : Type} [DecidableEq α] (l : List α) :
    (dedupKeepLast l).getLast? = l.getLast? := by
  induction l with
  | nil => rfl
  | cons a r ih =>
    rw [dedupKeepLast_cons]
    by_cases h : a ∈ r
    · rw [if_pos h, ih]
      obtain ⟨c, r3, rfl⟩ : ∃ c r3, r = c :: r3 := by
        cases r with
        | nil => exact absurd h (List.not_mem_nil a)
        | cons c r3 => exact ⟨c, r3, rfl⟩
      rw [List.getLast?_cons_cons]
    · rw [if_neg h]
      cases hq : dedupKeepLast r with
      | nil =>
        have hr : r = [] := by
          by_contra hc
          exact dedupKeepLast_ne_nil r hc hq
        subst hr
        rfl
      | cons b r2 =>
        rw [List.getLast?_cons_cons, ← hq, ih]
        obtain ⟨c, r3, rfl⟩ : ∃ c r3, r = c :: r3 := by
          cases r with
          | nil => exact absurd hq (by simp [dedupKeepLast])
          | cons c r3 => exact ⟨c, r3, rfl⟩
        rw [List.getLast?_cons_cons]

lemma lastPred_dedupKeepLast (ts : List (List (String × PyValue))) (u v : PyValue) :
    lastPred (dedupKeepLast ts) u v = lastPred ts u v := by
  unfold lastPred matchTriples
  rw [filter_dedupKeepLast, getLast_dedupKeepLast]

/-- C10: graph construction is idempotent under duplicated triples: building
from any list yields the same node set and the same labeled edge set as
building from the list with exact duplicates removed, keeping the last
occurrence of each triple. -/
theorem build_and_save_graph_dedup (ts : List (List (String × PyValue))) :
    (∀ n : PyValue, n ∈ (build_and_save_graph ts).nodes ↔
        n ∈ (build_and_save_graph (dedupKeepLast ts)).nodes) ∧
    (∀ e : PyValue × PyValue × PyValue, e ∈ (build_and_save_graph ts).edges ↔
        e ∈ (build_and_save_graph (dedupKeepLast ts)).edges) := by
  have hnd : NodupKeys (DiGraph.mk [] []).edges := List.nodup_nil
  constructor
  · intro n
    rw [show (build_and_save_graph ts).nodes = (ts.foldl graphStep ⟨[], []⟩).nodes from rfl,
      show (build_and_save_graph (dedupKeepLast ts)).nodes =
        ((dedupKeepLast ts).foldl graphStep ⟨[], []⟩).nodes from rfl,
      foldl_nodes_mem, foldl_nodes_mem]
    simp only [List.not_mem_nil, false_or]
    constructor
    · rintro ⟨t, ht, hp⟩
      exact ⟨t, (mem_dedupKeepLast ts t).mpr ht, hp⟩
    · rintro ⟨t, ht, hp⟩
      exact ⟨t, (mem_dedupKeepLast ts t).mp ht, hp⟩
  · intro e
    obtain ⟨u, v, lab⟩ := e
    rw [show (build_and_save_graph ts).edges = (ts.foldl graphStep ⟨[], []⟩).edges from rfl,
      show (build_and_save_graph (dedupKeepLast ts)).edges =
        ((dedupKeepLast ts).foldl graphStep ⟨[], []⟩).edges from rfl,
      foldl_edges_mem ts ⟨[], []⟩ hnd, foldl_edges_mem (dedupKeepLast ts) ⟨[], []⟩ hnd,
      lastPred_dedupKeepLast]

theorem build_and_save_graph_dedup_witness :
    PyValue.str "B" ∈ (build_and_save_graph (dedupKeepLast
      [[("subject", PyValue.str "A"), ("predicate", PyValue.str "p"),
        ("object", PyValue.str "B")],
       [("subject", PyValue.str "A"), ("predicate", PyValue.str "p"),
        ("object", PyValue.str "B")]])).nodes :=
  ((build_and_save_graph_dedup
      [[("subject", PyValue.str "A"), ("predicate", PyValue.str "p"),
        ("object", PyValue.str "B")],
       [("subject", PyValue.str "A"), ("predicate", PyValue.str "p"),
        ("object", PyValue.str "B")]]).1 (PyValue.str "B")).mp (by decide)

/-! ### Character-class facts used by the code-fence argument -/

lemma pyWs_toNat (x : Char) (h : isPyWs x = true) : x.toNat ≤ 32 ∨ 128 ≤ x.toNat := by
  simp only [isPyWs, Bool.or_eq_true, decide_eq_true_eq, or_assoc] at h
  rcases h with rfl|rfl|rfl|rfl|rfl|rfl|rfl|rfl|rfl|rfl|rfl|rfl|rfl|rfl|
    rfl|rfl|rfl|rfl|rfl|rfl|rfl|rfl|rfl|rfl|rfl|rfl|rfl|rfl|rfl
  all_goals decide

lemma digit_toNat (x : Char) (h : x.isDigit = true) : 48 ≤ x.toNat ∧ x.toNat ≤ 57 := by
  simp [Char.isDigit] at h
  exact h

lemma alpha_toNat (x : Char) (h : x.isAlpha = true) :
    (65 ≤ x.toNat ∧ x.toNat ≤ 90) ∨ (97 ≤ x.toNat ∧ x.toNat ≤ 122) := by
  simp [Char.isAlpha, Char.isUpper, Char.isLower] at h
  exact h

lemma ne_of_toNat_ne (x y : Char) (h : x.toNat ≠ y.toNat) : x ≠ y :=
  fun hh => h (congrArg Char.toNat hh)

lemma numChar_toNat (x : Char) (h : isNumChar x = true) :
    (48 ≤ x.toNat ∧ x.toNat ≤ 57) ∨ x.toNat = 46 ∨ x.toNat = 101 ∨ x.toNat = 69 ∨
      x.toNat = 43 ∨ x.toNat = 45 := by
  simp only [isNumChar, Bool.or_eq_true, decide_eq_true_eq] at h
  rcases h with ((((hd | rfl) | rfl) | rfl) | rfl) | rfl
  · exact Or.inl (digit_toNat x hd)
  all_goals simp

lemma numChar_not_pyWs (x : Char) (h : isNumChar x = true) : isPyWs x = false := by
  by_contra hc
  rw [Bool.not_eq_false] at hc
  rcases pyWs_toNat x hc with h1 | h1 <;> rcases numChar_toNat x h with h2 | h2 | h2 | h2 | h2 | h2 <;> omega

lemma numChar_ne_backquote (x : Char) (h : isNumChar x = true) : x ≠ backquote := by
  apply ne_of_toNat_ne
  have hb : backquote.toNat = 96 := by decide
  rw [hb]
  rcases numChar_toNat x h with h2 | h2 | h2 | h2 | h2 | h2 <;> omega

lemma numChar_ne_newline (x : Char) (h : isNumChar x = true) : x ≠ '\n' := by
  apply ne_of_toNat_ne
  have hb : '\n'.toNat = 10 := by decide
  rw [hb]
  rcases numChar_toNat x h with h2 | h2 | h2 | h2 | h2 | h2 <;> omega

lemma alpha_not_pyWs (x : Char) (h : x.isAlpha = true) : isPyWs x = false := by
  by_contra hc
  rw [Bool.not_eq_false] at hc
  rcases pyWs_toNat x hc with h1 | h1 <;> rcases alpha_toNat x h with h2 | h2 <;> omega

lemma alpha_ne_backquote (x : Char) (h : x.isAlpha = true) : x ≠ backquote := by
  apply ne_of_toNat_ne
  have hb : backquote.toNat = 96 := by decide
  rw [hb]
  rcases alpha_toNat x h with h2 | h2 <;> omega

lemma alpha_ne_newline (x : Char) (h : x.isAlpha = true) : x ≠ '\n' := by
  apply ne_of_toNat_ne
  have hb : '\n'.toNat = 10 := by decide
  rw [hb]
  rcases alpha_toNat x h with h2 | h2 <;> omega

lemma jsonWs_cases (x : Char) (h : isJsonWs x = true) :
    x = ' ' ∨ x = '\t' ∨ x = '\n' ∨ x = '\r' := by
  simp only [isJsonWs, Bool.or_eq_true, decide_eq_true_eq] at h
  tauto

lemma jsonWs_pyWs (x : Char) (h : isJsonWs x = true) : isPyWs x = true := by
  rcases jsonWs_cases x h with rfl | rfl | rfl | rfl <;> decide

lemma jsonWs_ne_backquote (x : Char) (h : isJsonWs x = true) : x ≠ backquote := by
  rcases jsonWs_cases x h with rfl | rfl | rfl | rfl <;> decide

lemma jsonWs_not_numChar (x : Char) (h : isJsonWs x = true) : isNumChar x = false := by
  rcases jsonWs_cases x h with rfl | rfl | rfl | rfl <;> decide

lemma jsonWs_not_alpha (x : Char) (h : isJsonWs x = true) : x.isAlpha = false := by
  rcases jsonWs_cases x h with rfl | rfl | rfl | rfl <;> decide

lemma hexVal_ws_none (x : Char) (h : isJsonWs x = true) : hexVal x = Option.none := by
  rcases jsonWs_cases x h with rfl | rfl | rfl | rfl <;> decide

/-! ### List helpers for the tokenizer arguments -/

lemma dropWhile_length_le (p : Char → Bool) (l : List Char) :
    (l.dropWhile p).length ≤ l.length := by
  induction l with
  | nil => simp
  | cons a l ih =>
    rw [List.dropWhile_cons]
    split
    · exact le_trans ih (Nat.le_succ _)
    · exact le_refl _

lemma dropWhile_append_of_cons (p : Char → Bool) (u w : List Char) (c : Char) (r : List Char)
    (h : u.dropWhile p = c :: r) : (u ++ w).dropWhile p = c :: (r ++ w) := by
  induction u with
  | nil => simp at h
  | cons a u ih =>
    rw [List.dropWhile_cons] at h
    rw [List.cons_append, List.dropWhile_cons]
    by_cases hp : p a = true
    · rw [if_pos hp] at h
      rw [if_pos hp]
      exact ih h
    · rw [if_neg hp] at h
      rw [if_neg hp]
      injection h with h1 h2
      rw [h1, h2]

lemma dropWhile_append_of_nil (p : Char → Bool) (u w : List Char)
    (h : u.dropWhile p = []) : (u ++ w).dropWhile p = w.dropWhile p := by
  induction u with
  | nil => rfl
  | cons a u ih =>
    rw [List.dropWhile_cons] at h
    rw [List.cons_append, List.dropWhile_cons]
    by_cases hp : p a = true
    · rw [if_pos hp] at h
      rw [if_pos hp]
      exact ih h
    · rw [if_neg hp] at h
      exact absurd h (List.cons_ne_nil a u)

lemma takeWhile_append_neg (p : Char → Bool) (x w : List Char)
    (hw : ∀ c ∈ w, p c = false) : (x ++ w).takeWhile p = x.takeWhile p := by
  induction x with
  | nil =>
    simp only [List.nil_append, List.takeWhile_nil]
    cases w with
    | nil => rfl
    | cons c w2 =>
      rw [List.takeWhile_cons, if_neg]
      simp [hw c (List.mem_cons_self c w2)]
  | cons a x ih =>
    rw [List.cons_append, List.takeWhile_cons, List.takeWhile_cons]
    by_cases hp : p a = true
    · rw [if_pos hp, if_pos hp, ih]
    · rw [if_neg hp, if_neg hp]

lemma dropWhile_append_neg (p : Char → Bool) (x w : List Char)
    (hw : ∀ c ∈ w, p c = false) : (x ++ w).dropWhile p = x.dropWhile p ++ w := by
  induction x with
  | nil =>
    simp only [List.nil_append, List.dropWhile_nil]
    cases w with
    | nil => rfl
    | cons c w2 =>
      rw [List.dropWhile_cons, if_neg]
      simp [hw c (List.mem_cons_self c w2)]
  | cons a x ih =>
    rw [List.cons_append, List.dropWhile_cons, List.dropWhile_cons]
    by_cases hp : p a = true
    · rw [if_pos hp, if_pos hp]
      exact ih
    · rw [if_neg hp, if_neg hp, List.cons_append]

/-! ### Facts about the string scanner -/

lemma scanString_ws_none (w : List Char) (hw : ∀ x ∈ w, isJsonWs x = true) :
    scanString w = Option.none := by
  induction w with
  | nil => rfl
  | cons c w ih =>
    have hc := hw c (List.mem_cons_self c w)
    have hrec := ih (fun x hx => hw x (List.mem_cons_of_mem c hx))
    rcases jsonWs_cases c hc with rfl | rfl | rfl | rfl
    · rw [scanString.eq_def]
      simp [hrec]
    · rw [scanString.eq_def]
      simp
    · rw [scanString.eq_def]
      simp
    · rw [scanString.eq_def]
      simp

lemma scanString_append_ws (w : List Char) (hw : ∀ x ∈ w, isJsonWs x = true) :
    ∀ n s, s.length ≤ n →
      scanString (s ++ w) = (scanString s).map (fun p => (p.1, p.2 ++ w)) := by
  intro n
  induction n with
  | zero =>
    intro s hs
    have hnil : s = [] := List.length_eq_zero.mp (Nat.le_zero.mp hs)
    subst hnil
    simp only [List.nil_append]
    rw [scanString_ws_none w hw]
    rfl
  | succ n ih =>
    intro s hs
    match s with
    | [] =>
      simp only [List.nil_append]
      rw [scanString_ws_none w hw]
      rfl
    | c :: r =>
      rw [List.cons_append, scanString.eq_def (c :: (r ++ w)), scanString.eq_def (c :: r)]
      by_cases h1 : c = '"'
      · subst h1
        simp
      · by_cases h2 : c = '\\'
        · subst h2
          simp only [if_neg h1, if_pos rfl]
          match r with
          | [] =>
            simp only [List.nil_append]
            cases w with
            | nil => rfl
            | cons e t =>
              have he := hw e (List.mem_cons_self e t)
              rcases jsonWs_cases e he with rfl | rfl | rfl | rfl <;> simp
          | e :: t =>
            have hlt : t.length ≤ n := by
              simp only [List.length_cons] at hs
              omega
            simp only [List.cons_append]
            by_cases g1 : e = '"'
            · subst g1
              simp only [if_pos rfl]
              rw [ih t hlt]
              cases scanString t <;> simp
            · by_cases g2 : e = '\\'
              · subst g2
                simp only [if_neg g1, if_pos rfl]
                rw [ih t hlt]
                cases scanString t <;> simp
              · by_cases g3 : e = '/'
                · subst g3
                  simp only [if_neg g1, if_neg g2, if_pos rfl]
                  rw [ih t hlt]
                  cases scanString t <;> simp
                · by_cases g4 : e = 'b'
                  · subst g4
                    simp only [if_neg g1, if_neg g2, if_neg g3, if_pos rfl]
                    rw [ih t hlt]
                    cases scanString t <;> simp
                  · by_cases g5 : e = 'f'
                    · subst g5
                      simp only [if_neg g1, if_neg g2, if_neg g3, if_neg g4, if_pos rfl]
                      rw [ih t hlt]
                      cases scanString t <;> simp
                    · by_cases g6 : e = 'n'
                      · subst g6
                        simp only [if_neg g1, if_neg g2, if_neg g3, if_neg g4, if_neg g5,
                          if_pos rfl]
                        rw [ih t hlt]
                        cases scanString t <;> simp
                      · by_cases g7 : e = 'r'
                        · subst g7
                          simp only [if_neg g1, if_neg g2, if_neg g3, if_neg g4, if_neg g5,
                            if_neg g6, if_pos rfl]
                          rw [ih t hlt]
                          cases scanString t <;> simp
                        · by_cases g8 : e = 't'
                          · subst g8
                            simp only [if_neg g1, if_neg g2, if_neg g3, if_neg g4, if_neg g5,
                              if_neg g6, if_neg g7, if_pos rfl]
                            rw [ih t hlt]
                            cases scanString t <;> simp
                          · by_cases g9 : e = 'u'
                            · subst g9
                              simp only [if_neg g1, if_neg g2, if_neg g3, if_neg g4, if_neg g5,
                                if_neg g6, if_neg g7, if_neg g8, if_pos rfl]
                              match t with
                              | h1 :: h2 :: h3 :: h4 :: t2 =>
                                have hlt2 : t2.length ≤ n := by
                                  simp only [List.length_cons] at hs
                                  omega
                                simp only [List.cons_append]
                                cases hexVal h1 <;> cases hexVal h2 <;> cases hexVal h3 <;>
                                  cases hexVal h4 <;> simp [ih t2 hlt2] <;>
                                  (cases scanString t2 <;> simp)
                              | [] =>
                                simp only [List.nil_append]
                                cases w with
                                | nil => rfl
                                | cons c1 w1 =>
                                  cases w1 with
                                  | nil => rfl
                                  | cons c2 w2 =>
                                    cases w2 with
                                    | nil => rfl
                                    | cons c3 w3 =>
                                      cases w3 with
                                      | nil => rfl
                                      | cons c4 w4 =>
                                        simp [hexVal_ws_none c1 (hw c1 (by simp))]
                              | [x1] =>
                                simp only [List.cons_append, List.nil_append]
                                cases w with
                                | nil => rfl
                                | cons c2 w2 =>
                                  cases w2 with
                                  | nil => rfl
                                  | cons c3 w3 =>
                                    cases w3 with
                                    | nil => rfl
                                    | cons c4 w4 =>
                                      cases hexVal x1 <;>
                                        simp [hexVal_ws_none c2 (hw c2 (by simp))]
                              | [x1, x2] =>
                                simp only [List.cons_append, List.nil_append]
                                cases w with
                                | nil => rfl
                                | cons c3 w3 =>
                                  cases w3 with
                                  | nil => rfl
                                  | cons c4 w4 =>
                                    cases hexVal x1 <;> cases hexVal x2 <;>
                                      simp [hexVal_ws_none c3 (hw c3 (by simp))]
                              | [x1, x2, x3] =>
                                simp only [List.cons_append, List.nil_append]
                                cases w with
                                | nil => rfl
                                | cons c4 w4 =>
                                  cases hexVal x1 <;> cases hexVal x2 <;> cases hexVal x3 <;>
                                    simp [hexVal_ws_none c4 (hw c4 (by simp))]
                            · simp only [if_neg g1, if_neg g2, if_neg g3, if_neg g4, if_neg g5,
                                if_neg g6, if_neg g7, if_neg g8, if_neg g9]
                              rfl
        · by_cases h3 : c.toNat < 0x20
          · simp only [if_neg h1, if_neg h2, if_pos h3]
            rfl
          · have hlt : r.length ≤ n := by
              simp only [List.length_cons] at hs
              omega
            simp only [if_neg h1, if_neg h2, if_neg h3]
            rw [ih r hlt]
            cases scanString r <;> simp

lemma hexVal_lower (x : Char) (a : Nat) (h : hexVal x = some a) : 0x20 ≤ x.toNat := by
  unfold hexVal at h
  split_ifs at h with c1 c2 c3
  · have h2 := c1.1
    simp [Char.le_def] at h2
    have h3 : (48 : Nat) ≤ x.toNat := h2
    omega
  · have h2 := c2.1
    simp [Char.le_def] at h2
    have h3 : (97 : Nat) ≤ x.toNat := h2
    omega
  · have h2 := c3.1
    simp [Char.le_def] at h2
    have h3 : (65 : Nat) ≤ x.toNat := h2
    omega

lemma scanString_cons_eq (c : Char) (r : List Char) :
    scanString (c :: r) =
      if c = '"' then some ([], r)
      else if c = '\\' then
        match r with
        | [] => Option.none
        | e :: t =>
          if e = '"' then (scanString t).map (fun p => ('"' :: p.1, p.2))
          else if e = '\\' then (scanString t).map (fun p => ('\\' :: p.1, p.2))
          else if e = '/' then (scanString t).map (fun p => ('/' :: p.1, p.2))
          else if e = 'b' then (scanString t).map (fun p => ('\x08' :: p.1, p.2))
          else if e = 'f' then (scanString t).map (fun p => ('\x0c' :: p.1, p.2))
          else if e = 'n' then (scanString t).map (fun p => ('\n' :: p.1, p.2))
          else if e = 'r' then (scanString t).map (fun p => ('\r' :: p.1, p.2))
          else if e = 't' then (scanString t).map (fun p => ('\t' :: p.1, p.2))
          else if e = 'u' then
            match t with
            | h1 :: h2 :: h3 :: h4 :: t2 =>
              match hexVal h1, hexVal h2, hexVal h3, hexVal h4 with
              | some a, some b, some c, some d =>
                (scanString t2).map
                  (fun p => (Char.ofNat (((a * 16 + b) * 16 + c) * 16 + d) :: p.1, p.2))
              | _, _, _, _ => Option.none
            | _ => Option.none
          else Option.none
      else if c.toNat < 0x20 then Option.none
      else (scanString r).map (fun p => (c :: p.1, p.2)) := by
  rw [scanString.eq_def]
  try rfl

lemma scanString_esc_eq (e : Char) (t : List Char) :
    scanString ('\\' :: e :: t) =
      (if e = '"' then (scanString t).map (fun p => ('"' :: p.1, p.2))
      else if e = '\\' then (scanString t).map (fun p => ('\\' :: p.1, p.2))
      else if e = '/' then (scanString t).map (fun p => ('/' :: p.1, p.2))
      else if e = 'b' then (scanString t).map (fun p => ('\x08' :: p.1, p.2))
      else if e = 'f' then (scanString t).map (fun p => ('\x0c' :: p.1, p.2))
      else if e = 'n' then (scanString t).map (fun p => ('\n' :: p.1, p.2))
      else if e = 'r' then (scanString t).map (fun p => ('\r' :: p.1, p.2))
      else if e = 't' then (scanString t).map (fun p => ('\t' :: p.1, p.2))
      else if e = 'u' then
        match t with
        | h1 :: h2 :: h3 :: h4 :: t2 =>
          match hexVal h1, hexVal h2, hexVal h3, hexVal h4 with
          | some a, some b, some c, some d =>
            (scanString t2).map
              (fun p => (Char.ofNat (((a * 16 + b) * 16 + c) * 16 + d) :: p.1, p.2))
          | _, _, _, _ => Option.none
        | _ => Option.none
      else Option.none) := by
  rw [scanString.eq_def]
  try rfl

lemma scanString_u_eq (a b c d : Char) (t2 : List Char) :
    scanString ('\\' :: 'u' :: a :: b :: c :: d :: t2) =
      (match hexVal a, hexVal b, hexVal c, hexVal d with
      | some va, some vb, some vc, some vd =>
        (scanString t2).map
          (fun p => (Char.ofNat (((va * 16 + vb) * 16 + vc) * 16 + vd) :: p.1, p.2))
      | _, _, _, _ => Option.none) := by
  rw [scanString.eq_def]
  try rfl

lemma scanString_decomp : ∀ n s, s.length ≤ n → ∀ content rest,
    scanString s = some (content, rest) →
    ∃ chunk, s = chunk ++ '"' :: rest ∧ ∀ x ∈ chunk, 0x20 ≤ x.toNat := by
  intro n
  induction n with
  | zero =>
    intro s hs content rest h
    have hnil : s = [] := List.length_eq_zero.mp (Nat.le_zero.mp hs)
    subst hnil
    simp [scanString] at h
  | succ n ih =>
    intro s hs content rest h
    rcases s with _ | ⟨c, r⟩
    · simp [scanString] at h
    · by_cases h1 : c = '"'
      · subst h1
        rw [scanString_cons_eq, if_pos rfl] at h
        injection h with h
        injection h with hcont hrest
        refine ⟨[], ?_, by simp⟩
        rw [List.nil_append, hrest]
      · by_cases h2 : c = '\\'
        · subst h2
          rcases r with _ | ⟨e, t⟩
          · rw [scanString_cons_eq] at h
            simp at h
          · have hlt : t.length ≤ n := by
              simp only [List.length_cons] at hs
              omega
            have h0 := h
            rw [scanString_esc_eq] at h
            have step : ∀ dec : Char,
                (scanString t).map (fun p => (dec :: p.1, p.2)) = some (content, rest) →
                0x20 ≤ e.toNat →
                ∃ chunk, '\\' :: e :: t = chunk ++ '"' :: rest ∧
                  ∀ x ∈ chunk, 0x20 ≤ x.toNat := by
              intro dec hmap he
              simp only [Option.map_eq_some'] at hmap
              obtain ⟨p, hp, hinj⟩ := hmap
              have hrest : p.2 = rest := congrArg Prod.snd hinj
              obtain ⟨chunk, hchunk, hge⟩ := ih t hlt p.1 p.2 (by rw [hp])
              refine ⟨'\\' :: e :: chunk, ?_, ?_⟩
              · rw [← hrest]
                simp [hchunk]
              · intro x hx
                simp only [List.mem_cons] at hx
                rcases hx with rfl | rfl | hx
                · decide
                · exact he
                · exact hge x hx
            by_cases g1 : e = '"'
            · subst g1
              rw [if_pos rfl] at h
              exact step '"' h (by decide)
            · by_cases g2 : e = '\\'
              · subst g2
                rw [if_neg g1, if_pos rfl] at h
                exact step '\\' h (by decide)
              · by_cases g3 : e = '/'
                · subst g3
                  rw [if_neg g1, if_neg g2, if_pos rfl] at h
                  exact step '/' h (by decide)
                · by_cases g4 : e = 'b'
                  · subst g4
                    rw [if_neg g1, if_neg g2, if_neg g3, if_pos rfl] at h
                    exact step '\x08' h (by decide)
                  · by_cases g5 : e = 'f'
                    · subst g5
                      rw [if_neg g1, if_neg g2, if_neg g3, if_neg g4, if_pos rfl] at h
                      exact step '\x0c' h (by decide)
                    · by_cases g6 : e = 'n'
                      · subst g6
                        rw [if_neg g1, if_neg g2, if_neg g3, if_neg g4, if_neg g5,
                          if_pos rfl] at h
                        exact step '\n' h (by decide)
                      · by_cases g7 : e = 'r'
                        · subst g7
                          rw [if_neg g1, if_neg g2, if_neg g3, if_neg g4, if_neg g5,
                            if_neg g6, if_pos rfl] at h
                          exact step '\r' h (by decide)
                        · by_cases g8 : e = 't'
                          · subst g8
                            rw [if_neg g1, if_neg g2, if_neg g3, if_neg g4, if_neg g5,
                              if_neg g6, if_neg g7, if_pos rfl] at h
                            exact step '\t' h (by decide)
                          · by_cases g9 : e = 'u'
                            · subst g9
                              rcases t with _ | ⟨h1c, _ | ⟨h2c, _ | ⟨h3c, _ | ⟨h4c, t2⟩⟩⟩⟩
                              · rw [scanString_esc_eq] at h0
                                simp at h0
                              · rw [scanString_esc_eq] at h0
                                simp at h0
                              · rw [scanString_esc_eq] at h0
                                simp at h0
                              · rw [scanString_esc_eq] at h0
                                simp at h0
                              · rw [scanString_u_eq] at h0
                                have hlt2 : t2.length ≤ n := by
                                  simp only [List.length_cons] at hs
                                  omega
                                cases hq1 : hexVal h1c with
                                | none => rw [hq1] at h0; simp at h0
                                | some a1 =>
                                cases hq2 : hexVal h2c with
                                | none => rw [hq1, hq2] at h0; simp at h0
                                | some a2 =>
                                cases hq3 : hexVal h3c with
                                | none => rw [hq1, hq2, hq3] at h0; simp at h0
                                | some a3 =>
                                cases hq4 : hexVal h4c with
                                | none => rw [hq1, hq2, hq3, hq4] at h0; simp at h0
                                | some a4 =>
                                rw [hq1, hq2, hq3, hq4] at h0
                                simp only [Option.map_eq_some'] at h0
                                obtain ⟨p, hp, hinj⟩ := h0
                                have hrest : p.2 = rest := congrArg Prod.snd hinj
                                obtain ⟨chunk, hchunk, hge⟩ := ih t2 hlt2 p.1 p.2 (by rw [hp])
                                refine ⟨'\\' :: 'u' :: h1c :: h2c :: h3c :: h4c :: chunk, ?_, ?_⟩
                                · rw [← hrest]
                                  simp [hchunk]
                                · intro x hx
                                  simp only [List.mem_cons] at hx
                                  rcases hx with rfl | rfl | rfl | rfl | rfl | rfl | hx
                                  · decide
                                  · decide
                                  · exact hexVal_lower x a1 hq1
                                  · exact hexVal_lower x a2 hq2
                                  · exact hexVal_lower x a3 hq3
                                  · exact hexVal_lower x a4 hq4
                                  · exact hge x hx
                            · rw [if_neg g1, if_neg g2, if_neg g3, if_neg g4, if_neg g5,
                                if_neg g6, if_neg g7, if_neg g8, if_neg g9] at h
                              exact absurd h (by simp)
        · rw [scanString_cons_eq, if_neg h1, if_neg h2] at h
          by_cases h3 : c.toNat < 0x20
          · rw [if_pos h3] at h
            exact absurd h (by simp)
          · rw [if_neg h3] at h
            simp only [Option.map_eq_some'] at h
            obtain ⟨p, hp, hinj⟩ := h
            have hrest : p.2 = rest := congrArg Prod.snd hinj
            obtain ⟨chunk, hchunk, hge⟩ := ih r (by simp only [List.length_cons] at hs; omega)
              p.1 p.2 (by rw [hp])
            refine ⟨c :: chunk, ?_, ?_⟩
            · rw [← hrest]
              simp [hchunk]
            · intro x hx
              simp only [List.mem_cons] at hx
              rcases hx with rfl | hx
              · omega
              · exact hge x hx

/-! ### Facts about single tokens -/

lemma not_pyWs_of_toNat (c : Char) (h1 : 33 ≤ c.toNat) (h2 : c.toNat ≤ 127) :
    isPyWs c = false := by
  cases hq : isPyWs c
  · rfl
  · rcases pyWs_toNat c hq with h | h <;> omega

lemma not_jsonWs_of_not_pyWs (c : Char) (h : isPyWs c = false) : isJsonWs c = false := by
  cases hq : isJsonWs c
  · rfl
  · rw [jsonWs_pyWs c hq] at h
    exact absurd h (by simp)

lemma dropWhile_all_cons (p : Char → Bool) (w : List Char) (c : Char) (r : List Char)
    (hw : ∀ x ∈ w, p x = true) (hc : p c = false) : (w ++ c :: r).dropWhile p = c :: r := by
  induction w with
  | nil =>
    rw [List.nil_append, List.dropWhile_cons, if_neg]
    simp [hc]
  | cons a w ih =>
    rw [List.cons_append, List.dropWhile_cons, if_pos]
    · exact ih (fun x hx => hw x (List.mem_cons_of_mem a hx))
    · simp [hw a (List.mem_cons_self a w)]

lemma chain'_okPair_disj (l : List Char) (h : '\n' ∉ l ∨ backquote ∉ l) :
    List.Chain' okPair l := by
  induction l with
  | nil => exact List.chain'_nil
  | cons a l ih =>
    have hl : '\n' ∉ l ∨ backquote ∉ l := by
      rcases h with h | h
      · exact Or.inl (fun hx => h (List.mem_cons_of_mem a hx))
      · exact Or.inr (fun hx => h (List.mem_cons_of_mem a hx))
    refine List.Chain'.cons' (ih hl) ?_
    intro y hy
    have hyl : y ∈ a :: l := List.mem_cons_of_mem a (List.mem_of_mem_head? hy)
    constructor
    · rintro ⟨ha, hb⟩
      rcases h with h | h
      · exact h (hb ▸ hyl)
      · exact h (ha ▸ List.mem_cons_self a l)
    · rintro ⟨ha, hb⟩
      rcases h with h | h
      · exact h (ha ▸ List.mem_cons_self a l)
      · exact h (hb ▸ hyl)

lemma tokStep_not_pyWs (c : Char) (r : List Char) (t : JTok) (rest : List Char)
    (h : tokStep c r = some (t, rest)) : isPyWs c = false := by
  by_cases h1 : c = '['
  · subst h1; decide
  by_cases h2 : c = ']'
  · subst h2; decide
  by_cases h3 : c = '{'
  · subst h3; decide
  by_cases h4 : c = '}'
  · subst h4; decide
  by_cases h5 : c = ','
  · subst h5; decide
  by_cases h6 : c = ':'
  · subst h6; decide
  by_cases h7 : c = '"'
  · subst h7; decide
  by_cases h8 : c = '-'
  · subst h8; decide
  by_cases hd : c.isDigit = true
  · have := digit_toNat c hd
    exact not_pyWs_of_toNat c (by omega) (by omega)
  by_cases ha : c.isAlpha = true
  · have := alpha_toNat c ha
    exact not_pyWs_of_toNat c (by omega) (by omega)
  exfalso
  simp only [tokStep, if_neg h1, if_neg h2, if_neg h3, if_neg h4, if_neg h5, if_neg h6,
    if_neg h7] at h
  rw [if_neg (fun hc => h8 hc.1)] at h
  rw [if_neg (by simp [hd, h8])] at h
  rw [if_neg (by simp [ha])] at h
  exact Option.noConfusion h

lemma goodToken_singleton (c : Char) (hbq : c ≠ backquote) (hws : isPyWs c = false)
    (hnl : c ≠ '\n') : GoodToken [c] := by
  refine ⟨List.cons_ne_nil c [], ?_, ⟨c, rfl, hbq, hws⟩, Or.inl ?_⟩
  · simp only [List.head?_cons, ne_eq, Option.some.injEq]
    exact hbq
  · simp only [List.mem_singleton]
    exact fun hc => hnl hc.symm

lemma numBranch_decomp (c : Char) (r rest : List Char) (t : JTok)
    (hc : isNumChar c = true)
    (h : (match numToken ((c :: r).takeWhile isNumChar) with
      | some tk => some (tk, (c :: r).dropWhile isNumChar)
      | Option.none => Option.none) = some (t, rest)) :
    ∃ tok, c :: r = tok ++ rest ∧ GoodToken tok := by
  cases hq : numToken ((c :: r).takeWhile isNumChar) with
  | none => rw [hq] at h; exact absurd h (by simp)
  | some tk =>
    rw [hq] at h
    injection h with h
    injection h with ht hr
    refine ⟨(c :: r).takeWhile isNumChar, ?_, ?_⟩
    · rw [← hr]
      exact (List.takeWhile_append_dropWhile _ _).symm
    · have htw : (c :: r).takeWhile isNumChar = c :: r.takeWhile isNumChar := by
        rw [List.takeWhile_cons, if_pos hc]
      rw [htw]
      have hmem : ∀ x ∈ c :: r.takeWhile isNumChar, isNumChar x = true := by
        intro x hx
        rcases List.mem_cons.mp hx with rfl | hx
        · exact hc
        · exact List.mem_takeWhile_imp hx
      refine ⟨List.cons_ne_nil _ _, ?_, ?_, Or.inl ?_⟩
      · simp only [List.head?_cons, ne_eq, Option.some.injEq]
        exact numChar_ne_backquote c hc
      · obtain ⟨z, hz⟩ := Option.isSome_iff_exists.mp
          (List.getLast?_isSome.mpr (List.cons_ne_nil c (r.takeWhile isNumChar)))
        have hzm := List.mem_of_mem_getLast? hz
        exact ⟨z, hz, numChar_ne_backquote z (hmem z hzm), numChar_not_pyWs z (hmem z hzm)⟩
      · intro hmemNl
        have := hmem '\n' hmemNl
        rw [show isNumChar '\n' = false from by decide] at this
        exact absurd this (by simp)

lemma wordBranch_decomp (c : Char) (r rest : List Char) (t : JTok)
    (hc : c.isAlpha = true)
    (h : (match wordToken ((c :: r).takeWhile Char.isAlpha) with
      | some tk => some (tk, (c :: r).dropWhile Char.isAlpha)
      | Option.none => Option.none) = some (t, rest)) :
    ∃ tok, c :: r = tok ++ rest ∧ GoodToken tok := by
  cases hq : wordToken ((c :: r).takeWhile Char.isAlpha) with
  | none => rw [hq] at h; exact absurd h (by simp)
  | some tk =>
    rw [hq] at h
    injection h with h
    injection h with ht hr
    refine ⟨(c :: r).takeWhile Char.isAlpha, ?_, ?_⟩
    · rw [← hr]
      exact (List.takeWhile_append_dropWhile _ _).symm
    · have htw : (c :: r).takeWhile Char.isAlpha = c :: r.takeWhile Char.isAlpha := by
        rw [List.takeWhile_cons, if_pos hc]
      rw [htw]
      have hmem : ∀ x ∈ c :: r.takeWhile Char.isAlpha, x.isAlpha = true := by
        intro x hx
        rcases List.mem_cons.mp hx with rfl | hx
        · exact hc
        · exact List.mem_takeWhile_imp hx
      refine ⟨List.cons_ne_nil _ _, ?_, ?_, Or.inl ?_⟩
      · simp only [List.head?_cons, ne_eq, Option.some.injEq]
        exact alpha_ne_backquote c hc
      · obtain ⟨z, hz⟩ := Option.isSome_iff_exists.mp
          (List.getLast?_isSome.mpr (List.cons_ne_nil c (r.takeWhile Char.isAlpha)))
        have hzm := List.mem_of_mem_getLast? hz
        exact ⟨z, hz, alpha_ne_backquote z (hmem z hzm), alpha_not_pyWs z (hmem z hzm)⟩
      · intro hmemNl
        have := hmem '\n' hmemNl
        rw [show Char.isAlpha '\n' = false from by decide] at this
        exact absurd this (by simp)

lemma tokStep_decomp (c : Char) (r : List Char) (t : JTok) (rest : List Char)
    (h : tokStep c r = some (t, rest)) :
    ∃ tok, c :: r = tok ++ rest ∧ GoodToken tok := by
  by_cases h1 : c = '['
  · subst h1
    have h' : some (JTok.lbrack, r) = some (t, rest) := h
    injection h' with h'
    injection h' with ht hr
    exact ⟨['['], by rw [← hr, List.singleton_append], goodToken_singleton _ (by decide) (by decide) (by decide)⟩
  by_cases h2 : c = ']'
  · subst h2
    have h' : some (JTok.rbrack, r) = some (t, rest) := h
    injection h' with h'
    injection h' with ht hr
    exact ⟨[']'], by rw [← hr, List.singleton_append], goodToken_singleton _ (by decide) (by decide) (by decide)⟩
  by_cases h3 : c = '{'
  · subst h3
    have h' : some (JTok.lbrace, r) = some (t, rest) := h
    injection h' with h'
    injection h' with ht hr
    exact ⟨['{'], by rw [← hr, List.singleton_append], goodToken_singleton _ (by decide) (by decide) (by decide)⟩
  by_cases h4 : c = '}'
  · subst h4
    have h' : some (JTok.rbrace, r) = some (t, rest) := h
    injection h' with h'
    injection h' with ht hr
    exact ⟨['}'], by rw [← hr, List.singleton_append], goodToken_singleton _ (by decide) (by decide) (by decide)⟩
  by_cases h5 : c = ','
  · subst h5
    have h' : some (JTok.comma, r) = some (t, rest) := h
    injection h' with h'
    injection h' with ht hr
    exact ⟨[','], by rw [← hr, List.singleton_append], goodToken_singleton _ (by decide) (by decide) (by decide)⟩
  by_cases h6 : c = ':'
  · subst h6
    have h' : some (JTok.colon, r) = some (t, rest) := h
    injection h' with h'
    injection h' with ht hr
    exact ⟨[':'], by rw [← hr, List.singleton_append], goodToken_singleton _ (by decide) (by decide) (by decide)⟩
  by_cases h7 : c = '"'
  · subst h7
    have h' : (match scanString r with
        | some (content, rest) => some (JTok.jstr content, rest)
        | Option.none => Option.none) = some (t, rest) := h
    cases hq : scanString r with
    | none => rw [hq] at h'; exact absurd h' (by simp)
    | some p =>
      obtain ⟨content, rest'⟩ := p
      rw [hq] at h'
      injection h' with h'
      injection h' with ht hr
      obtain ⟨chunk, hchunk, hge⟩ := scanString_decomp r.length r le_rfl content rest' hq
      refine ⟨'"' :: (chunk ++ ['"']), ?_, ?_⟩
      · rw [← hr, hchunk]
        simp
      · refine ⟨List.cons_ne_nil _ _, ?_, ⟨'"', ?_, by decide, by decide⟩, Or.inl ?_⟩
        · simp only [List.head?_cons, ne_eq, Option.some.injEq]
          decide
        · rw [show '"' :: (chunk ++ ['"']) = ('"' :: chunk) ++ ['"'] from by simp,
            List.getLast?_append_of_ne_nil _ (by simp)]
          rfl
        · intro hmem
          simp only [List.mem_cons, List.mem_append, List.mem_singleton] at hmem
          rcases hmem with hc | hc | hc
          · exact absurd hc (by decide)
          · have := hge '\n' hc
            rw [show Char.toNat '\n' = 10 from rfl] at this
            omega
          · exact absurd hc (by decide)
  by_cases h8 : c = '-'
  · subst h8
    by_cases hh : ((r.head?.map Char.isAlpha).getD false) = true
    · simp only [tokStep] at h
      rw [if_neg (by decide : ¬('-' = '[')), if_neg (by decide : ¬('-' = ']')),
        if_neg (by decide : ¬('-' = '{')), if_neg (by decide : ¬('-' = '}')),
        if_neg (by decide : ¬('-' = ',')), if_neg (by decide : ¬('-' = ':')),
        if_neg (by decide : ¬('-' = '"')), if_pos ⟨by trivial, hh⟩] at h
      by_cases hInf : r.takeWhile Char.isAlpha = "Infinity".toList
      · rw [if_pos hInf] at h
        injection h with h
        injection h with ht hr
        refine ⟨'-' :: r.takeWhile Char.isAlpha, ?_, ?_⟩
        · rw [← hr]
          simp [List.takeWhile_append_dropWhile]
        · rw [hInf]
          exact ⟨by decide, by decide, ⟨'y', by decide, by decide, by decide⟩, Or.inl (by decide)⟩
      · rw [if_neg hInf] at h
        exact absurd h (by simp)
    · have h' : (match numToken (('-' :: r).takeWhile isNumChar) with
          | some tk => some (tk, ('-' :: r).dropWhile isNumChar)
          | Option.none => Option.none) = some (t, rest) := by
        simp only [tokStep] at h
        rw [if_neg (by decide : ¬('-' = '[')), if_neg (by decide : ¬('-' = ']')),
          if_neg (by decide : ¬('-' = '{')), if_neg (by decide : ¬('-' = '}')),
          if_neg (by decide : ¬('-' = ',')), if_neg (by decide : ¬('-' = ':')),
          if_neg (by decide : ¬('-' = '"')), if_neg (fun hc => hh hc.2),
          if_pos (by simp)] at h
        exact h
      exact numBranch_decomp '-' r rest t (by decide) h'
  by_cases hd : c.isDigit = true
  · have h' : (match numToken ((c :: r).takeWhile isNumChar) with
        | some tk => some (tk, (c :: r).dropWhile isNumChar)
        | Option.none => Option.none) = some (t, rest) := by
      simp only [tokStep] at h
      rw [if_neg h1, if_neg h2, if_neg h3, if_neg h4, if_neg h5, if_neg h6, if_neg h7,
        if_neg (fun hc => h8 hc.1), if_pos (by simp [hd])] at h
      exact h
    exact numBranch_decomp c r rest t (by simp [isNumChar, hd]) h'
  by_cases ha : c.isAlpha = true
  · have hd' : c.isDigit = false := by simpa using hd
    have h' : (match wordToken ((c :: r).takeWhile Char.isAlpha) with
        | some tk => some (tk, (c :: r).dropWhile Char.isAlpha)
        | Option.none => Option.none) = some (t, rest) := by
      simp only [tokStep] at h
      rw [if_neg h1, if_neg h2, if_neg h3, if_neg h4, if_neg h5, if_neg h6, if_neg h7,
        if_neg (fun hc => h8 hc.1), if_neg (by simp [hd', h8]), if_pos ha] at h
      exact h
    exact wordBranch_decomp c r rest t ha h'
  exfalso
  have hd' : c.isDigit = false := by simpa using hd
  have ha' : c.isAlpha = false := by simpa using ha
  simp only [tokStep] at h
  rw [if_neg h1, if_neg h2, if_neg h3, if_neg h4, if_neg h5, if_neg h6, if_neg h7,
    if_neg (fun hc => h8 hc.1), if_neg (by simp [hd', h8]), if_neg (by simp [ha'])] at h
  exact Option.noConfusion h

lemma tokStep_length (c : Char) (r : List Char) (t : JTok) (rest : List Char)
    (h : tokStep c r = some (t, rest)) : rest.length ≤ r.length := by
  obtain ⟨tok, heq, hg⟩ := tokStep_decomp c r t rest h
  have hlen := congrArg List.length heq
  rw [List.length_cons, List.length_append] at hlen
  have htok : 1 ≤ tok.length := List.length_pos.mpr hg.1
  omega

lemma tokStep_append_ws (w : List Char) (hw : ∀ x ∈ w, isJsonWs x = true)
    (c : Char) (r : List Char) :
    tokStep c (r ++ w) = (tokStep c r).map (fun p => (p.1, p.2 ++ w)) := by
  have hwA : ∀ x ∈ w, Char.isAlpha x = false := fun x hx => jsonWs_not_alpha x (hw x hx)
  have hwN : ∀ x ∈ w, isNumChar x = false := fun x hx => jsonWs_not_numChar x (hw x hx)
  by_cases h1 : c = '['
  · subst h1; rfl
  by_cases h2 : c = ']'
  · subst h2; rfl
  by_cases h3 : c = '{'
  · subst h3; rfl
  by_cases h4 : c = '}'
  · subst h4; rfl
  by_cases h5 : c = ','
  · subst h5; rfl
  by_cases h6 : c = ':'
  · subst h6; rfl
  by_cases h7 : c = '"'
  · subst h7
    have e1 : tokStep '"' (r ++ w) = (match scanString (r ++ w) with
        | some (content, rest) => some (JTok.jstr content, rest)
        | Option.none => Option.none) := rfl
    have e2 : tokStep '"' r = (match scanString r with
        | some (content, rest) => some (JTok.jstr content, rest)
        | Option.none => Option.none) := rfl
    rw [e1, e2, scanString_append_ws w hw r.length r le_rfl]
    cases scanString r with
    | none => rfl
    | some p => rfl
  by_cases h8 : c = '-'
  · subst h8
    by_cases hh : ((r.head?.map Char.isAlpha).getD false) = true
    · have hh' : (((r ++ w).head?.map Char.isAlpha).getD false) = true := by
        cases r with
        | nil => simp at hh
        | cons x r' => simpa using hh
      have e1 : tokStep '-' (r ++ w) =
          (if (r ++ w).takeWhile Char.isAlpha = "Infinity".toList then
            some (JTok.jfloat ('-' :: "Infinity".toList), (r ++ w).dropWhile Char.isAlpha)
          else Option.none) := by
        simp only [tokStep]
        rw [if_neg (by decide : ¬('-' = '[')), if_neg (by decide : ¬('-' = ']')),
          if_neg (by decide : ¬('-' = '{')), if_neg (by decide : ¬('-' = '}')),
          if_neg (by decide : ¬('-' = ',')), if_neg (by decide : ¬('-' = ':')),
          if_neg (by decide : ¬('-' = '"')), if_pos ⟨by trivial, hh'⟩]
      have e2 : tokStep '-' r =
          (if r.takeWhile Char.isAlpha = "Infinity".toList then
            some (JTok.jfloat ('-' :: "Infinity".toList), r.dropWhile Char.isAlpha)
          else Option.none) := by
        simp only [tokStep]
        rw [if_neg (by decide : ¬('-' = '[')), if_neg (by decide : ¬('-' = ']')),
          if_neg (by decide : ¬('-' = '{')), if_neg (by decide : ¬('-' = '}')),
          if_neg (by decide : ¬('-' = ',')), if_neg (by decide : ¬('-' = ':')),
          if_neg (by decide : ¬('-' = '"')), if_pos ⟨by trivial, hh⟩]
      rw [e1, e2, takeWhile_append_neg _ r w hwA, dropWhile_append_neg _ r w hwA]
      by_cases hInf : r.takeWhile Char.isAlpha = "Infinity".toList
      · rw [if_pos hInf, if_pos hInf]; rfl
      · rw [if_neg hInf, if_neg hInf]; rfl
    · have hh' : ¬(((r ++ w).head?.map Char.isAlpha).getD false = true) := by
        cases r with
        | cons x r' => simpa using hh
        | nil =>
          cases w with
          | nil => simp
          | cons e w' =>
            have := hwA e (List.mem_cons_self e w')
            simp [this]
      have e1 : tokStep '-' (r ++ w) =
          (match numToken (('-' :: (r ++ w)).takeWhile isNumChar) with
          | some tk => some (tk, ('-' :: (r ++ w)).dropWhile isNumChar)
          | Option.none => Option.none) := by
        simp only [tokStep]
        rw [if_neg (by decide : ¬('-' = '[')), if_neg (by decide : ¬('-' = ']')),
          if_neg (by decide : ¬('-' = '{')), if_neg (by decide : ¬('-' = '}')),
          if_neg (by decide : ¬('-' = ',')), if_neg (by decide : ¬('-' = ':')),
          if_neg (by decide : ¬('-' = '"')), if_neg (fun hc => hh' hc.2),
          if_pos (by simp)]
      have e2 : tokStep '-' r =
          (match numToken (('-' :: r).takeWhile isNumChar) with
          | some tk => some (tk, ('-' :: r).dropWhile isNumChar)
          | Option.none => Option.none) := by
        simp only [tokStep]
        rw [if_neg (by decide : ¬('-' = '[')), if_neg (by decide : ¬('-' = ']')),
          if_neg (by decide : ¬('-' = '{')), if_neg (by decide : ¬('-' = '}')),
          if_neg (by decide : ¬('-' = ',')), if_neg (by decide : ¬('-' = ':')),
          if_neg (by decide : ¬('-' = '"')), if_neg (fun hc => hh hc.2),
          if_pos (by simp)]
      have spanT : ('-' :: (r ++ w)).takeWhile isNumChar = ('-' :: r).takeWhile isNumChar := by
        rw [← List.cons_append]
        exact takeWhile_append_neg _ _ _ hwN
      have spanD : ('-' :: (r ++ w)).dropWhile isNumChar =
          ('-' :: r).dropWhile isNumChar ++ w := by
        rw [← List.cons_append]
        exact dropWhile_append_neg _ _ _ hwN
      rw [e1, e2, spanT, spanD]
      cases numToken (('-' :: r).takeWhile isNumChar) with
      | none => rfl
      | some tk => rfl
  by_cases hd : c.isDigit = true
  · have e1 : tokStep c (r ++ w) =
        (match numToken ((c :: (r ++ w)).takeWhile isNumChar) with
        | some tk => some (tk, (c :: (r ++ w)).dropWhile isNumChar)
        | Option.none => Option.none) := by
      simp only [tokStep]
      rw [if_neg h1, if_neg h2, if_neg h3, if_neg h4, if_neg h5, if_neg h6, if_neg h7,
        if_neg (fun hc => h8 hc.1), if_pos (by simp [hd])]
    have e2 : tokStep c r =
        (match numToken ((c :: r).takeWhile isNumChar) with
        | some tk => some (tk, (c :: r).dropWhile isNumChar)
        | Option.none => Option.none) := by
      simp only [tokStep]
      rw [if_neg h1, if_neg h2, if_neg h3, if_neg h4, if_neg h5, if_neg h6, if_neg h7,
        if_neg (fun hc => h8 hc.1), if_pos (by simp [hd])]
    have spanT : (c :: (r ++ w)).takeWhile isNumChar = (c :: r).takeWhile isNumChar := by
      rw [← List.cons_append]
      exact takeWhile_append_neg _ _ _ hwN
    have spanD : (c :: (r ++ w)).dropWhile isNumChar = (c :: r).dropWhile isNumChar ++ w := by
      rw [← List.cons_append]
      exact dropWhile_append_neg _ _ _ hwN
    rw [e1, e2, spanT, spanD]
    cases numToken ((c :: r).takeWhile isNumChar) with
    | none => rfl
    | some tk => rfl
  by_cases ha : c.isAlpha = true
  · have hd' : c.isDigit = false := by simpa using hd
    have e1 : tokStep c (r ++ w) =
        (match wordToken ((c :: (r ++ w)).takeWhile Char.isAlpha) with
        | some tk => some (tk, (c :: (r ++ w)).dropWhile Char.isAlpha)
        | Option.none => Option.none) := by
      simp only [tokStep]
      rw [if_neg h1, if_neg h2, if_neg h3, if_neg h4, if_neg h5, if_neg h6, if_neg h7,
        if_neg (fun hc => h8 hc.1), if_neg (by simp [hd', h8]), if_pos ha]
    have e2 : tokStep c r =
        (match wordToken ((c :: r).takeWhile Char.isAlpha) with
        | some tk => some (tk, (c :: r).dropWhile Char.isAlpha)
        | Option.none => Option.none) := by
      simp only [tokStep]
      rw [if_neg h1, if_neg h2, if_neg h3, if_neg h4, if_neg h5, if_neg h6, if_neg h7,
        if_neg (fun hc => h8 hc.1), if_neg (by simp [hd', h8]), if_pos ha]
    have spanT : (c :: (r ++ w)).takeWhile Char.isAlpha = (c :: r).takeWhile Char.isAlpha := by
      rw [← List.cons_append]
      exact takeWhile_append_neg _ _ _ hwA
    have spanD : (c :: (r ++ w)).dropWhile Char.isAlpha =
        (c :: r).dropWhile Char.isAlpha ++ w := by
      rw [← List.cons_append]
      exact dropWhile_append_neg _ _ _ hwA
    rw [e1, e2, spanT, spanD]
    cases wordToken ((c :: r).takeWhile Char.isAlpha) with
    | none => rfl
    | some tk => rfl
  have hd' : c.isDigit = false := by simpa using hd
  have ha' : c.isAlpha = false := by simpa using ha
  have e1 : tokStep c (r ++ w) = Option.none := by
    simp only [tokStep]
    rw [if_neg h1, if_neg h2, if_neg h3, if_neg h4, if_neg h5, if_neg h6, if_neg h7,
      if_neg (fun hc => h8 hc.1), if_neg (by simp [hd', h8]), if_neg (by simp [ha'])]
  have e2 : tokStep c r = Option.none := by
    simp only [tokStep]
    rw [if_neg h1, if_neg h2, if_neg h3, if_neg h4, if_neg h5, if_neg h6, if_neg h7,
      if_neg (fun hc => h8 hc.1), if_neg (by simp [hd', h8]), if_neg (by simp [ha'])]
  rw [e1, e2]
  rfl

/-! ### Facts about the lexical scan -/

lemma tokLoop_zero (s : List Char) :
    tokLoop 0 s = if s.dropWhile isJsonWs = [] then some [] else Option.none := rfl

lemma tokLoop_succ (f : Nat) (s : List Char) :
    tokLoop (f + 1) s = (match s.dropWhile isJsonWs with
      | [] => some []
      | c :: r =>
        match tokStep c r with
        | some (t, rest) => (tokLoop f rest).map (t :: ·)
        | Option.none => Option.none) := rfl

lemma tokLoop_of_ws_nil (f : Nat) (s : List Char) (h : s.dropWhile isJsonWs = []) :
    tokLoop f s = some [] := by
  cases f with
  | zero => rw [tokLoop_zero, if_pos h]
  | succ f => rw [tokLoop_succ, h]

lemma tokLoop_succ_cons (f : Nat) (s : List Char) (c : Char) (r : List Char)
    (h : s.dropWhile isJsonWs = c :: r) :
    tokLoop (f + 1) s = (match tokStep c r with
      | some (t, rest) => (tokLoop f rest).map (t :: ·)
      | Option.none => Option.none) := by
  rw [tokLoop_succ, h]

lemma tokLoop_congr : ∀ n s₁ s₂ f₁ f₂, s₁.dropWhile isJsonWs = s₂.dropWhile isJsonWs →
    s₁.length ≤ f₁ → s₂.length ≤ f₂ → n = (s₁.dropWhile isJsonWs).length →
    tokLoop f₁ s₁ = tokLoop f₂ s₂ := by
  intro n
  induction n using Nat.strong_induction_on with
  | _ n ih =>
    intro s₁ s₂ f₁ f₂ hdw hf₁ hf₂ hn
    cases hu : s₁.dropWhile isJsonWs with
    | nil =>
      rw [tokLoop_of_ws_nil f₁ s₁ hu, tokLoop_of_ws_nil f₂ s₂ (hdw ▸ hu)]
    | cons c r =>
      have hu₂ : s₂.dropWhile isJsonWs = c :: r := hdw ▸ hu
      have hl₁ : 1 ≤ s₁.length := by
        have := dropWhile_length_le isJsonWs s₁
        rw [hu] at this
        simp only [List.length_cons] at this
        omega
      have hl₂ : 1 ≤ s₂.length := by
        have := dropWhile_length_le isJsonWs s₂
        rw [hu₂] at this
        simp only [List.length_cons] at this
        omega
      cases f₁ with
      | zero => omega
      | succ g₁ =>
        cases f₂ with
        | zero => omega
        | succ g₂ =>
          rw [tokLoop_succ_cons g₁ s₁ c r hu, tokLoop_succ_cons g₂ s₂ c r hu₂]
          cases hts : tokStep c r with
          | none => rfl
          | some p =>
            obtain ⟨t, rest⟩ := p
            have hrl : rest.length ≤ r.length := tokStep_length c r t rest hts
            have hrr : r.length + 1 ≤ s₁.length := by
              have := dropWhile_length_le isJsonWs s₁
              rw [hu] at this
              simp only [List.length_cons] at this
              omega
            show (tokLoop g₁ rest).map (t :: ·) = (tokLoop g₂ rest).map (t :: ·)
            rw [ih (rest.dropWhile isJsonWs).length
              (by
                rw [hn, hu]
                have := dropWhile_length_le isJsonWs rest
                simp only [List.length_cons]
                omega)
              rest rest g₁ g₂ rfl
              (by omega)
              (by
                have := dropWhile_length_le isJsonWs s₂
                rw [hu₂] at this
                simp only [List.length_cons] at this
                omega)
              rfl]

lemma tokLoop_append_ws (w : List Char) (hw : ∀ x ∈ w, isJsonWs x = true) :
    ∀ n s f₁ f₂, (s ++ w).length ≤ f₁ → s.length ≤ f₂ → n = s.length →
    tokLoop f₁ (s ++ w) = tokLoop f₂ s := by
  intro n
  induction n using Nat.strong_induction_on with
  | _ n ih =>
    intro s f₁ f₂ hf₁ hf₂ hn
    cases hu : s.dropWhile isJsonWs with
    | nil =>
      have huw : (s ++ w).dropWhile isJsonWs = [] := by
        rw [dropWhile_append_of_nil isJsonWs s w hu]
        exact List.dropWhile_eq_nil_iff.mpr (fun x hx => hw x hx)
      rw [tokLoop_of_ws_nil f₁ _ huw, tokLoop_of_ws_nil f₂ s hu]
    | cons c r =>
      have huw : (s ++ w).dropWhile isJsonWs = c :: (r ++ w) :=
        dropWhile_append_of_cons isJsonWs s w c r hu
      have hl : 1 ≤ s.length := by
        have := dropWhile_length_le isJsonWs s
        rw [hu] at this
        simp only [List.length_cons] at this
        omega
      have hrr : r.length + 1 ≤ s.length := by
        have := dropWhile_length_le isJsonWs s
        rw [hu] at this
        simp only [List.length_cons] at this
        omega
      cases f₁ with
      | zero =>
        rw [List.length_append] at hf₁
        omega
      | succ g₁ =>
        cases f₂ with
        | zero => omega
        | succ g₂ =>
          rw [tokLoop_succ_cons g₁ _ c (r ++ w) huw, tokLoop_succ_cons g₂ s c r hu,
            tokStep_append_ws w hw c r]
          cases hts : tokStep c r with
          | none => rfl
          | some p =>
            obtain ⟨t, rest⟩ := p
            have hrl : rest.length ≤ r.length := tokStep_length c r t rest hts
            simp only [Option.map_some']
            show (tokLoop g₁ (rest ++ w)).map (t :: ·) = (tokLoop g₂ rest).map (t :: ·)
            rw [ih rest.length (by omega) rest g₁ g₂
              (by
                rw [List.length_append] at hf₁ ⊢
                omega)
              (by omega) rfl]

lemma safeChars_of_all_ws (s : List Char) (h : ∀ x ∈ s, isJsonWs x = true) :
    SafeChars s := by
  refine ⟨?_, ?_, chain'_okPair_disj s (Or.inr ?_)⟩
  · cases s with
    | nil => simp
    | cons a l =>
      simp only [List.head?_cons, ne_eq, Option.some.injEq]
      exact jsonWs_ne_backquote a (h a (List.mem_cons_self a l))
  · cases hq : s.getLast? with
    | none => simp
    | some z =>
      simp only [ne_eq, Option.some.injEq]
      exact jsonWs_ne_backquote z (h z (List.mem_of_mem_getLast? hq))
  · intro hmem
    have := h backquote hmem
    rw [show isJsonWs backquote = false from by decide] at this
    exact absurd this (by simp)

lemma safeChars_compose (w tok rest : List Char) (hw : ∀ x ∈ w, isJsonWs x = true)
    (ht : GoodToken tok) (hr : SafeChars rest) : SafeChars (w ++ (tok ++ rest)) := by
  obtain ⟨hne, hhead, ⟨z, hz, hzbq, hzws⟩, hdisj⟩ := ht
  obtain ⟨rh, rl, rc⟩ := hr
  refine ⟨?_, ?_, ?_⟩
  · cases w with
    | nil =>
      rw [List.nil_append, List.head?_append_of_ne_nil tok hne]
      exact hhead
    | cons a w' =>
      simp only [List.cons_append, List.head?_cons, ne_eq, Option.some.injEq]
      exact jsonWs_ne_backquote a (hw a (List.mem_cons_self a w'))
  · cases hrest : rest with
    | nil =>
      subst hrest
      rw [List.append_nil]
      rw [show w ++ tok = w ++ tok from rfl, List.getLast?_append_of_ne_nil w hne, hz]
      simp only [ne_eq, Option.some.injEq]
      exact hzbq
    | cons b rest' =>
      rw [List.getLast?_append_of_ne_nil w (by simp [hrest]),
        List.getLast?_append_of_ne_nil tok (by simp [hrest])]
      rw [← hrest]
      exact rl
  · refine List.chain'_append.mpr ⟨?_, List.chain'_append.mpr ⟨?_, rc, ?_⟩, ?_⟩
    · exact chain'_okPair_disj w (Or.inr (fun hm => by
        have := hw backquote hm
        rw [show isJsonWs backquote = false from by decide] at this
        exact absurd this (by simp)))
    · exact chain'_okPair_disj tok hdisj
    · intro x hx y hy
      have hxz : x = z := by
        rw [Option.mem_def, hz] at hx
        exact (Option.some.inj hx).symm
      subst hxz
      constructor
      · rintro ⟨ha, _⟩
        exact hzbq ha
      · rintro ⟨_, hb⟩
        exact rh (by rw [Option.mem_def] at hy; rw [hy, hb])
    · intro x hx y hy
      have hxw : x ∈ w := List.mem_of_mem_getLast? (Option.mem_def.mp hx)
      have hxbq : x ≠ backquote := jsonWs_ne_backquote x (hw x hxw)
      rw [List.head?_append_of_ne_nil tok hne] at hy
      have hybq : y ≠ backquote := by
        intro hc
        exact hhead (by rw [Option.mem_def.mp hy, hc])
      exact ⟨fun hc => hxbq hc.1, fun hc => hybq hc.2⟩

lemma tokLoop_last : ∀ n s f ts, n = s.length → s.length ≤ f → tokLoop f s = some ts →
    s = [] ∨ ∃ z, s.getLast? = some z ∧ (isJsonWs z = true ∨ isPyWs z = false) := by
  intro n
  induction n using Nat.strong_induction_on with
  | _ n ih =>
    intro s f ts hn hf hloop
    cases hu : s.dropWhile isJsonWs with
    | nil =>
      have hall : ∀ x ∈ s, isJsonWs x = true := List.dropWhile_eq_nil_iff.mp hu
      by_cases hs : s = []
      · exact Or.inl hs
      · obtain ⟨z, hz⟩ := Option.isSome_iff_exists.mp (List.getLast?_isSome.mpr hs)
        exact Or.inr ⟨z, hz, Or.inl (hall z (List.mem_of_mem_getLast? hz))⟩
    | cons c r =>
      have hsw : s.takeWhile isJsonWs ++ (c :: r) = s := by
        rw [← hu]
        exact List.takeWhile_append_dropWhile isJsonWs s
      have hrr : r.length + 1 ≤ s.length := by
        have := dropWhile_length_le isJsonWs s
        rw [hu] at this
        simp only [List.length_cons] at this
        omega
      cases f with
      | zero => omega
      | succ g =>
        rw [tokLoop_succ_cons g s c r hu] at hloop
        cases hts : tokStep c r with
        | none => rw [hts] at hloop; exact absurd hloop (by simp)
        | some p =>
          obtain ⟨t, rest⟩ := p
          rw [hts] at hloop
          have hmap : (tokLoop g rest).map (t :: ·) = some ts := hloop
          obtain ⟨ts', hts', _⟩ := Option.map_eq_some'.mp hmap
          obtain ⟨tok, htok, hg⟩ := tokStep_decomp c r t rest hts
          have hrl : rest.length ≤ r.length := tokStep_length c r t rest hts
          have hs2 : s = (s.takeWhile isJsonWs ++ tok) ++ rest := by
            rw [List.append_assoc, ← htok, hsw]
          rcases ih rest.length (by omega) rest g ts' rfl (by omega) hts' with hrnil | ⟨z, hz, hzp⟩
          · subst hrnil
            obtain ⟨zt, hzt, hztbq, hztws⟩ := hg.2.2.1
            refine Or.inr ⟨zt, ?_, Or.inr hztws⟩
            rw [hs2, List.append_nil, List.getLast?_append_of_ne_nil _ hg.1]
            exact hzt
          · have hrne : rest ≠ [] := by
              intro hc
              rw [hc] at hz
              exact Option.noConfusion hz
            refine Or.inr ⟨z, ?_, hzp⟩
            rw [hs2, List.getLast?_append_of_ne_nil _ hrne]
            exact hz

lemma tokLoop_safe : ∀ n s f ts, n = s.length → s.length ≤ f → tokLoop f s = some ts →
    SafeChars s := by
  intro n
  induction n using Nat.strong_induction_on with
  | _ n ih =>
    intro s f ts hn hf hloop
    cases hu : s.dropWhile isJsonWs with
    | nil =>
      exact safeChars_of_all_ws s (List.dropWhile_eq_nil_iff.mp hu)
    | cons c r =>
      have hsw : s.takeWhile isJsonWs ++ (c :: r) = s := by
        rw [← hu]
        exact List.takeWhile_append_dropWhile isJsonWs s
      have hrr : r.length + 1 ≤ s.length := by
        have := dropWhile_length_le isJsonWs s
        rw [hu] at this
        simp only [List.length_cons] at this
        omega
      cases f with
      | zero => omega
      | succ g =>
        rw [tokLoop_succ_cons g s c r hu] at hloop
        cases hts : tokStep c r with
        | none => rw [hts] at hloop; exact absurd hloop (by simp)
        | some p =>
          obtain ⟨t, rest⟩ := p
          rw [hts] at hloop
          have hmap : (tokLoop g rest).map (t :: ·) = some ts := hloop
          obtain ⟨ts', hts', _⟩ := Option.map_eq_some'.mp hmap
          obtain ⟨tok, htok, hg⟩ := tokStep_decomp c r t rest hts
          have hrl : rest.length ≤ r.length := tokStep_length c r t rest hts
          have hsafe : SafeChars rest := ih rest.length (by omega) rest g ts' rfl (by omega) hts'
          have hs2 : s = s.takeWhile isJsonWs ++ (tok ++ rest) := by
            rw [← List.append_assoc, List.append_assoc, ← htok, hsw]
          rw [hs2]
          exact safeChars_compose _ tok rest
            (fun x hx => List.mem_takeWhile_imp hx) hg hsafe

/-! ### `str.strip()` and the tokenizer -/

lemma dropTrailWs_id (l : List Char) (hl : ∀ c, l.getLast? = some c → isPyWs c = false) :
    dropTrailWs l = l := by
  unfold dropTrailWs
  cases hq : l.reverse with
  | nil =>
    have hnil : l = [] := by simpa using congrArg List.reverse hq
    subst hnil
    rfl
  | cons b t =>
    have hb : l.getLast? = some b := by
      rw [← List.head?_reverse, hq]
      rfl
    rw [List.dropWhile_cons, if_neg (by simp [hl b hb]), ← hq, List.reverse_reverse]

lemma pyStrip_id (l : List Char) (hh : ∀ c, l.head? = some c → isPyWs c = false)
    (hl : ∀ c, l.getLast? = some c → isPyWs c = false) : pyStrip l = l := by
  unfold pyStrip
  have hdw : l.dropWhile isPyWs = l := by
    cases l with
    | nil => rfl
    | cons a r => rw [List.dropWhile_cons, if_neg (by simp [hh a rfl])]
  rw [hdw]
  exact dropTrailWs_id l hl

lemma pyStrip_cons_ws (c : Char) (l : List Char) (hc : isPyWs c = true) :
    pyStrip (c :: l) = pyStrip l := by
  unfold pyStrip
  rw [List.dropWhile_cons, if_pos hc]

lemma dropTrailWs_append_ws (l w : List Char) (hw : ∀ x ∈ w, isPyWs x = true) :
    dropTrailWs (l ++ w) = dropTrailWs l := by
  unfold dropTrailWs
  rw [List.reverse_append, dropWhile_append_of_nil isPyWs w.reverse l.reverse
    (List.dropWhile_eq_nil_iff.mpr (fun x hx => hw x (List.mem_reverse.mp hx)))]

lemma pyStrip_append_ws (l w : List Char) (hw : ∀ x ∈ w, isPyWs x = true) :
    pyStrip (l ++ w) = pyStrip l := by
  unfold pyStrip
  cases hq : l.dropWhile isPyWs with
  | nil =>
    rw [dropWhile_append_of_nil isPyWs l w hq,
      List.dropWhile_eq_nil_iff.mpr (fun x hx => hw x hx)]
  | cons c r =>
    rw [dropWhile_append_of_cons isPyWs l w c r hq,
      show c :: (r ++ w) = (c :: r) ++ w from (List.cons_append c r w).symm]
    exact dropTrailWs_append_ws (c :: r) w hw

lemma tokenize_dropTrail : ∀ n s ts, n = s.length → tokenize s = some ts →
    tokenize (dropTrailWs s) = some ts := by
  intro n
  induction n using Nat.strong_induction_on with
  | _ n ih =>
    intro s ts hn h
    rcases tokLoop_last s.length s s.length ts rfl le_rfl h with hnil | ⟨z, hz, hzp⟩
    · subst hnil
      exact h
    · rcases hzp with hzj | hznp
      · have hzpw : isPyWs z = true := jsonWs_pyWs z hzj
        have hsplit : s.dropLast ++ [z] = s := List.dropLast_append_getLast? z hz
        have htok' : tokenize s.dropLast = some ts := by
          rw [← h]
          show tokLoop s.dropLast.length s.dropLast = tokenize s
          conv_rhs => rw [tokenize, ← hsplit]
          exact (tokLoop_append_ws [z]
            (fun x hx => by
              simp only [List.mem_singleton] at hx
              subst hx
              exact hzj)
            s.dropLast.length s.dropLast (s.dropLast ++ [z]).length s.dropLast.length
            le_rfl le_rfl rfl).symm
        have hdt : dropTrailWs s = dropTrailWs s.dropLast := by
          conv_lhs => rw [← hsplit]
          exact dropTrailWs_append_ws s.dropLast [z]
            (fun x hx => by
              simp only [List.mem_singleton] at hx
              subst hx
              exact hzpw)
        have hlen : s.dropLast.length < n := by
          have := congrArg List.length hsplit
          simp only [List.length_append, List.length_singleton] at this
          omega
        rw [hdt]
        exact ih s.dropLast.length hlen s.dropLast ts rfl htok'
      · rw [dropTrailWs_id s (fun c hc => by
          rw [hz] at hc
          injection hc with hc
          rw [← hc]
          exact hznp)]
        exact h

lemma tokenize_pyStrip (s : List Char) (ts : List JTok) (h : tokenize s = some ts) :
    tokenize (pyStrip s) = some ts := by
  cases hu : s.dropWhile isJsonWs with
  | nil =>
    have hall : ∀ x ∈ s, isJsonWs x = true := List.dropWhile_eq_nil_iff.mp hu
    have hps : pyStrip s = [] := by
      unfold pyStrip
      rw [List.dropWhile_eq_nil_iff.mpr (fun x hx => jsonWs_pyWs x (hall x hx))]
      rfl
    have hts : ts = [] := by
      have h2 := (h.symm.trans (tokLoop_of_ws_nil s.length s hu))
      exact Option.some.inj h2
    rw [hps, hts]
    rfl
  | cons c r =>
    have hsw : s.takeWhile isJsonWs ++ (c :: r) = s := by
      rw [← hu]
      exact List.takeWhile_append_dropWhile isJsonWs s
    cases hsl : s.length with
    | zero =>
      have hnil : s = [] := List.length_eq_zero.mp hsl
      rw [hnil] at hu
      exact absurd hu (by simp)
    | succ g =>
      have h' : tokLoop (g + 1) s = some ts := by
        rw [← hsl]
        exact h
      rw [tokLoop_succ_cons g s c r hu] at h'
      cases hts : tokStep c r with
      | none => rw [hts] at h'; exact absurd h' (by simp)
      | some p =>
        obtain ⟨t, rest⟩ := p
        have hcp : isPyWs c = false := tokStep_not_pyWs c r t rest hts
        have hdpw : s.dropWhile isPyWs = c :: r := by
          conv_lhs => rw [← hsw]
          exact dropWhile_all_cons isPyWs (s.takeWhile isJsonWs) c r
            (fun x hx => jsonWs_pyWs x (List.mem_takeWhile_imp hx)) hcp
        have hps : pyStrip s = dropTrailWs (c :: r) := by
          unfold pyStrip
          rw [hdpw]
        have hdc : (c :: r).dropWhile isJsonWs = c :: r := by
          rw [List.dropWhile_cons, if_neg (by simp [not_jsonWs_of_not_pyWs c hcp])]
        have htr : tokenize (c :: r) = some ts := by
          rw [← h]
          exact tokLoop_congr ((c :: r).dropWhile isJsonWs).length (c :: r) s
            (c :: r).length s.length (hdc.trans hu.symm) le_rfl le_rfl rfl
        rw [hps]
        exact tokenize_dropTrail (c :: r).length (c :: r) ts rfl htr

/-! ### The fence substitution on a fenced, token-safe body -/

lemma tics_eq : tics = [backquote, backquote, backquote] := by decide

lemma ticsJson_eq :
    ticsJson = backquote :: backquote :: backquote :: 'j' :: 's' :: 'o' :: 'n' :: [] := by
  decide

lemma fenceGo_succ (f : Nat) (b : Bool) (s : List Char) :
    fenceGo (f + 1) b s =
      (if b ∧ s.take 7 = ticsJson then fenceGo f false (s.drop 7)
      else if b ∧ s.take 3 = tics then fenceGo f false (s.drop 3)
      else if s.take 3 = tics ∧ (s.drop 3 = [] ∨ (s.drop 3).head? = some '\n') then
        fenceGo f false (s.drop 3)
      else
        match s with
        | [] => []
        | c :: r => c :: fenceGo f (c = '\n') r) := rfl

lemma fenceGo_nil (f : Nat) (b : Bool) : fenceGo f b [] = [] := by
  cases f with
  | zero => rfl
  | succ f =>
    rw [fenceGo_succ, if_neg (fun hc => absurd hc.2 (by decide)),
      if_neg (fun hc => absurd hc.2 (by decide)),
      if_neg (fun hc => absurd hc.1 (by decide))]

lemma fenceGo_step (f : Nat) (b : Bool) (c : Char) (r : List Char)
    (h1 : ¬(b ∧ (c :: r).take 7 = ticsJson))
    (h2 : ¬(b ∧ (c :: r).take 3 = tics))
    (h3 : ¬((c :: r).take 3 = tics ∧
      ((c :: r).drop 3 = [] ∨ ((c :: r).drop 3).head? = some '\n'))) :
    fenceGo (f + 1) b (c :: r) = c :: fenceGo f (c = '\n') r := by
  rw [fenceGo_succ, if_neg h1, if_neg h2, if_neg h3]

lemma fenceGo_inner : ∀ n x, n = x.length → List.Chain' okPair x →
    x.getLast? ≠ some backquote → ∀ f, x.length + 4 ≤ f → ∀ b : Bool,
    (b = true → x.head? ≠ some backquote) →
    fenceGo f b (x ++ '\n' :: tics) = x ++ ['\n'] := by
  intro n
  induction n using Nat.strong_induction_on with
  | _ n ih =>
    intro x hn hchain hlast f hf b hb
    cases x with
    | nil =>
      simp only [List.length_nil] at hf
      simp only [List.nil_append]
      cases f with
      | zero => omega
      | succ f1 =>
        rw [fenceGo_step f1 b '\n' tics
          (fun hc => absurd hc.2 (by decide))
          (fun hc => absurd hc.2 (by decide))
          (fun hc => absurd hc.1 (by decide))]
        show ('\n' : Char) :: fenceGo f1 true tics = ['\n']
        cases f1 with
        | zero => omega
        | succ f2 =>
          rw [fenceGo_succ, if_neg (fun hc => absurd hc.2 (by decide)),
            if_pos ⟨by trivial, by decide⟩,
            show tics.drop 3 = ([] : List Char) from by decide, fenceGo_nil]
    | cons c x' =>
      simp only [List.length_cons] at hf
      cases f with
      | zero => omega
      | succ f1 =>
        rw [List.cons_append]
        have hh1 : ¬(b ∧ (c :: (x' ++ '\n' :: tics)).take 7 = ticsJson) := by
          rintro ⟨hb', htk⟩
          rw [List.take_succ_cons, ticsJson_eq] at htk
          injection htk with e1 _
          exact hb hb' (by rw [List.head?_cons, e1])
        have hh2 : ¬(b ∧ (c :: (x' ++ '\n' :: tics)).take 3 = tics) := by
          rintro ⟨hb', htk⟩
          rw [List.take_succ_cons, tics_eq] at htk
          injection htk with e1 _
          exact hb hb' (by rw [List.head?_cons, e1])
        have hh3 : ¬((c :: (x' ++ '\n' :: tics)).take 3 = tics ∧
            (((c :: (x' ++ '\n' :: tics)).drop 3 = [] ∨
              ((c :: (x' ++ '\n' :: tics)).drop 3).head? = some '\n'))) := by
          rintro ⟨htk, hrest⟩
          cases x' with
          | nil =>
            rw [show (c :: (([] : List Char) ++ '\n' :: tics)).take 3 =
              [c, '\n', backquote] from rfl, tics_eq] at htk
            injection htk with e1 htk
            injection htk with e2 _
            exact absurd e2 (by decide)
          | cons d x'' =>
            cases x'' with
            | nil =>
              rw [show (c :: ((d :: ([] : List Char)) ++ '\n' :: tics)).take 3 =
                [c, d, '\n'] from rfl, tics_eq] at htk
              injection htk with e1 htk
              injection htk with e2 htk
              injection htk with e3 _
              exact absurd e3 (by decide)
            | cons e x3 =>
              rw [show (c :: ((d :: e :: x3) ++ '\n' :: tics)).take 3 =
                [c, d, e] from rfl, tics_eq] at htk
              injection htk with e1 htk
              injection htk with e2 htk
              injection htk with e3 _
              rw [show (c :: ((d :: e :: x3) ++ '\n' :: tics)).drop 3 =
                x3 ++ '\n' :: tics from rfl] at hrest
              rcases hrest with hnil | hhd
              · exact absurd hnil (by simp)
              · cases x3 with
                | nil =>
                  exact hlast (by rw [show (c :: d :: e :: ([] : List Char)).getLast? =
                    some e from rfl, e3])
                | cons y x4 =>
                  rw [show ((y :: x4) ++ '\n' :: tics).head? = some y from rfl] at hhd
                  injection hhd with hy
                  have hok : okPair e y := (hchain.tail.tail).rel_head
                  exact hok.1 ⟨e3, hy⟩
        rw [fenceGo_step f1 b c (x' ++ '\n' :: tics) hh1 hh2 hh3]
        have hlast' : x'.getLast? ≠ some backquote := by
          cases x' with
          | nil => simp
          | cons y x2 =>
            rw [← List.getLast?_cons_cons]
            exact hlast
        have hb' : (c = '\n' : Bool) = true → x'.head? ≠ some backquote := by
          intro hd hcon
          have hcn : c = '\n' := by simpa using hd
          cases x' with
          | nil => simp at hcon
          | cons y x2 =>
            rw [List.head?_cons] at hcon
            injection hcon with hy
            have hok : okPair c y := hchain.rel_head
            exact hok.2 ⟨hcn, hy⟩
        rw [ih x'.length (by rw [hn, List.length_cons]; omega) x' rfl hchain.tail hlast' f1 (by omega) (c = '\n') hb']
        rw [List.cons_append]

lemma fenceSub_wrapped (A : List Char) (h : SafeChars A) :
    fenceSub (ticsJson ++ '\n' :: (A ++ '\n' :: tics)) = '\n' :: (A ++ ['\n']) := by
  obtain ⟨hhead, hlast, hchain⟩ := h
  unfold fenceSub
  have hlen : (ticsJson ++ '\n' :: (A ++ '\n' :: tics)).length = A.length + 12 := by
    rw [List.length_append, List.length_cons, List.length_append, List.length_cons,
      show ticsJson.length = 7 from by decide, show tics.length = 3 from by decide]
    omega
  rw [hlen, show A.length + 12 = (A.length + 11) + 1 from rfl, fenceGo_succ]
  have ht7 : (ticsJson ++ '\n' :: (A ++ '\n' :: tics)).take 7 = ticsJson :=
    List.take_left' (by decide)
  have hd7 : (ticsJson ++ '\n' :: (A ++ '\n' :: tics)).drop 7 = '\n' :: (A ++ '\n' :: tics) :=
    List.drop_left' (by decide)
  rw [if_pos ⟨by trivial, ht7⟩, hd7,
    show A.length + 11 = (A.length + 10) + 1 from rfl,
    fenceGo_step (A.length + 10) false '\n' (A ++ '\n' :: tics)
      (fun hc => absurd hc.1 (by simp))
      (fun hc => absurd hc.1 (by simp))
      (fun hc => by
        have htk := hc.1
        rw [List.take_succ_cons, tics_eq] at htk
        injection htk with e1 _
        exact absurd e1 (by decide))]
  show ('\n' : Char) :: fenceGo (A.length + 10) true (A ++ '\n' :: tics) = '\n' :: (A ++ ['\n'])
  rw [fenceGo_inner A.length A rfl hchain hlast (A.length + 10) (by omega) true
    (fun _ => hhead)]

/-- C4: on a model reply that is a well-formed JSON value wrapped in a
markdown code fence with the `json` language tag, the extractor's cleaning
(outer `strip`, the line-anchored fence substitution, inner `strip`) followed
by `json.loads` yields exactly the value that parsing the unwrapped text `A`
directly yields: the triples extracted from `"\x60\x60\x60json\n" ++ A ++ "\n\x60\x60\x60"`
are exactly the parse of `A`. -/
theorem extract_fenced_equals_direct (A : String) (xs : List PyValue)
    (h : json_loads A = some (PyValue.list xs)) :
    extract_knowledge_triples ("```json\n" ++ A ++ "\n```") = PyValue.list xs := by
  unfold json_loads json_loads_list at h
  cases hts : tokenize A.toList with
  | none => rw [hts] at h; exact absurd h (by simp)
  | some ts =>
    rw [hts] at h
    have hsafe : SafeChars A.toList :=
      tokLoop_safe A.toList.length A.toList A.toList.length ts rfl le_rfl hts
    have hchars : ("```json\n" ++ A ++ "\n```").toList =
        ticsJson ++ '\n' :: (A.toList ++ '\n' :: tics) := by
      have tl : ∀ s t : String, (s ++ t).toList = s.toList ++ t.toList :=
        fun s t => String.data_append s t
      rw [show ("```json\n" ++ A ++ "\n```").toList =
          "```json\n".toList ++ (A.toList ++ "\n```".toList) from by
        rw [tl, tl, List.append_assoc]]
      rw [show "```json\n".toList = ticsJson ++ ['\n'] from by decide,
        show "\n```".toList = '\n' :: tics from by decide]
      simp
    unfold extract_knowledge_triples cleanReply
    rw [hchars]
    have hstrip1 : pyStrip (ticsJson ++ '\n' :: (A.toList ++ '\n' :: tics)) =
        ticsJson ++ '\n' :: (A.toList ++ '\n' :: tics) := by
      apply pyStrip_id
      · intro c hc
        rw [List.head?_append_of_ne_nil ticsJson (by decide),
          show ticsJson.head? = some backquote from by decide] at hc
        injection hc with hc
        rw [← hc]
        decide
      · intro c hc
        rw [List.getLast?_append_of_ne_nil _ (by simp),
          show ('\n' :: (A.toList ++ '\n' :: tics)) =
            ['\n'] ++ (A.toList ++ '\n' :: tics) from rfl,
          List.getLast?_append_of_ne_nil _ (by simp),
          List.getLast?_append_of_ne_nil _ (by simp),
          show ('\n' :: tics).getLast? = some backquote from by decide] at hc
        injection hc with hc
        rw [← hc]
        decide
    rw [hstrip1, fenceSub_wrapped A.toList hsafe,
      pyStrip_cons_ws '\n' _ (by decide),
      pyStrip_append_ws A.toList ['\n'] (by
        intro x hx
        simp only [List.mem_singleton] at hx
        subst hx
        decide)]
    have hfinal : json_loads_list (pyStrip A.toList) = some (PyValue.list xs) := by
      unfold json_loads_list
      rw [tokenize_pyStrip A.toList ts hts]
      exact h
    rw [hfinal]

theorem extract_fenced_equals_direct_witness :
    json_loads "[1]" = some (PyValue.list [PyValue.int 1]) ∧
    extract_knowledge_triples ("```json\n" ++ "[1]" ++ "\n```") =
      PyValue.list [PyValue.int 1] :=
  ⟨by decide, extract_fenced_equals_direct "[1]" [PyValue.int 1] (by decide)⟩
